import Mathlib

/-!
Verification of the vocal alignment and scoring core of the choirmind
vocal service (`processing.py` and `scoring.py`), shallowly embedded
over real arithmetic.  Python floats are modelled as real numbers, NaN
pitch entries as `Option.none` (the JSON boundary maps null to
unvoiced), and Python's `round(x, d)` (round half to even at the d-th
decimal) as `roundTo d`.  The external `fastdtw` library is not part of
this repository; it is modelled from the spec by the predicate
`DTWSpec` further below, and the stages of `align_features` that follow
the DTW call are embedded as the function `align_rest`, parameterised
by the path and distance that the aligner returned.
-/

noncomputable section

namespace VocalService

/-- Python's built-in `round` on a real value: round half to even. -/
def rEven (x : ℝ) : ℤ :=
  if Int.fract x = 1 / 2 then 2 * round (x / 2) else round x

/-- Python's `round(x, d)`: round half to even at the d-th decimal. -/
def roundTo (d : ℕ) (x : ℝ) : ℝ := (rEven (x * 10 ^ d) : ℝ) / 10 ^ d

/-- Python float `%` (they are only applied with positive modulus here). -/
def pymod (a b : ℝ) : ℝ := a - b * ⌊a / b⌋

/-- `np.clip`. -/
def clip (x lo hi : ℝ) : ℝ := max lo (min x hi)

/-- Python `int()` applied to a float: truncation toward zero. -/
def intTrunc (x : ℝ) : ℤ := if 0 ≤ x then ⌊x⌋ else -⌊-x⌋

/-- `np.mean` of a list (0 for the empty list, which is never used). -/
def mean (l : List ℝ) : ℝ := l.sum / l.length

/-- Sorting a list of reals ascending, as `np.sort` / `sorted`. -/
def sortR (l : List ℝ) : List ℝ := List.insertionSort (· ≤ ·) l

/-- `np.median`: middle element of the sorted list, or the average of the
two middle elements for even length.  (`np.median([])` is NaN and is never
consumed by the code; the model returns 0 there.) -/
def median (l : List ℝ) : ℝ :=
  if l = [] then 0
  else if l.length % 2 = 1 then (sortR l).getD (l.length / 2) 0
  else ((sortR l).getD (l.length / 2 - 1) 0 + (sortR l).getD (l.length / 2) 0) / 2

/-- Scan step for `np.interp`: walk the remaining sample points with the
previous point at hand. -/
def interpScan (xi : ℝ) : List (ℝ × ℝ) → ℝ × ℝ → ℝ
  | [], prev => prev.2
  | (x1, f1) :: rest, (x0, f0) =>
      if xi ≤ x1 then f0 + (f1 - f0) * (xi - x0) / (x1 - x0)
      else interpScan xi rest (x1, f1)

/-- `np.interp(xi, xp, fp)` for a single evaluation point, assuming `xp`
sorted increasing (which holds at every exercised call site).  Empty `xp`
returns 0 (numpy raises there; no exercised call reaches it). -/
def interpPt (xp fp : List ℝ) (xi : ℝ) : ℝ :=
  match xp, fp with
  | x0 :: xs, f0 :: fs => if xi ≤ x0 then f0 else interpScan xi (xs.zip fs) (x0, f0)
  | _, _ => 0

/-- `_nearest_idx` helper: first index of the minimal `|arr[i] - v|`
(`np.argmin` keeps the first occurrence of the minimum). -/
def nearestAux (v : ℝ) : List ℝ → ℕ → ℕ × ℝ → ℕ
  | [], _, best => best.1
  | a :: rest, i, best =>
      if |a - v| < best.2 then nearestAux v rest (i + 1) (i, |a - v|)
      else nearestAux v rest (i + 1) best

def nearestIdx (l : List ℝ) (v : ℝ) : ℕ :=
  match l with
  | [] => 0
  | a :: rest => nearestAux v rest 1 (0, |a - v|)

/-! ## Data model

`Feature` records as consumed by `align_features` / `score_recording`
(JSON shape of `extract_features`).  A pitch entry `none` is the unvoiced
sentinel (NaN / JSON null). -/

structure Features where
  pitch_values : List (Option ℝ)
  pitch_times : List ℝ
  onset_times : List ℝ
  rms_values : List ℝ
  rms_times : List ℝ
  duration_s : ℝ

structure DriftRegion where
  user_time : ℝ
  ref_time : ℝ
  slope : Option ℝ

structure PathSanity where
  is_sane : Bool
  drift_regions : List DriftRegion
  avg_slope : ℝ

structure Alignment where
  path : List (ℕ × ℕ)
  dtw_distance : ℝ
  pitch_deviations : List (Option ℝ)
  timing_offsets : List ℝ
  energy_ratios : List (Option ℝ)
  path_sanity : PathSanity

/-- A note event from `_extract_notes`. -/
structure Note where
  startTime : ℝ
  endTime : ℝ
  note : Option String
  hz : ℝ

/-- An aligned pair from `_align_notes`. -/
structure NotePair where
  noteIndex : ℕ
  refNote : Option String
  refStartTime : ℝ
  refEndTime : ℝ
  userNote : Option String
  userStartTime : Option ℝ
  userEndTime : Option ℝ
  noteMatch : Bool
  pitchClassMatch : Option Bool
  octaveDiff : Option ℤ
  centsOff : Option ℝ
  timingOffsetMs : Option ℤ

structure SectionScore where
  sectionIndex : ℕ
  startTime : ℝ
  endTime : ℝ
  overallScore : Option ℝ
  pitchScore : Option ℝ
  timingScore : Option ℝ
  dynamicsScore : Option ℝ
  refNote : Option String
  userNote : Option String
  noteMatch : Option Bool
  pitchClassMatch : Option Bool
  octaveDiff : Option ℤ

structure ProblemArea where
  startTime : ℝ
  endTime : ℝ
  issues : List String
  avgPitchDevCents : ℝ
  avgTimingOffsetMs : ℝ
  avgEnergyRatio : ℝ
  refStartTime : Option ℝ
  refEndTime : Option ℝ

structure ScoreReport where
  overallScore : ℝ
  pitchScore : ℝ
  timingScore : ℝ
  dynamicsScore : ℝ
  sectionScores : List SectionScore
  problemAreas : List ProblemArea
  noteComparison : List NotePair

/-- The voicing test `(~np.isnan(p)) & (p > 0)` on one entry, keeping the
value when voiced. -/
def voicedOf : Option ℝ → Option ℝ
  | some v => if 0 < v then some v else none
  | none => none

/-- `np.std` (population standard deviation). -/
def stdDev (l : List ℝ) : ℝ :=
  Real.sqrt (mean (l.map (fun x => (x - mean l) ^ 2)))

/-- `range(0, stop, step)` over Python ints (`stop` may be negative). -/
def rangeBy (stop : ℤ) (step : ℕ) : List ℕ :=
  if stop ≤ 0 then [] else (List.range ((stop.toNat + step - 1) / step)).map (· * step)

/-- `window_frames = max(1, int(window_s / frame_dur))` with the default
`window_s = 1.0`, `frame_dur = 0.02`. -/
def window_frames : ℕ := (max 1 (intTrunc (1.0 / 0.02))).toNat

/-- `step = max(1, window_frames // 4)`. -/
def onset_step : ℕ := max 1 (window_frames / 4)

/-- `_detect_singing_onset` from processing.py. -/
def detect_singing_onset (user_pitch : List (Option ℝ)) (user_times : List ℝ)
    (ref_pitch : List (Option ℝ)) (ref_times : List ℝ) : ℝ :=
  if user_pitch = [] ∨ ref_pitch = [] ∨ user_times = [] then 0 else
  let max_search_s := min 5.0 (user_times.getLast?.getD 0)
  let max_search_frames : ℤ := min (user_pitch.length : ℤ) (intTrunc (max_search_s / 0.02))
  let ref_idx := (ref_times.findIdx? (fun t => decide (5.0 < t))).getD ref_times.length
  let ref_first_voiced := (ref_pitch.take ref_idx).filterMap voicedOf
  if ref_first_voiced = [] then 0 else
  let ref_median_hz := median ref_first_voiced
  let passes : ℕ → Bool := fun start =>
    let window := (user_pitch.drop start).take window_frames
    if window = [] then false else
    let voiced := window.filterMap voicedOf
    if (voiced.length : ℝ) / window.length < 0.30 then false else
    if voiced.length < 3 then false else
    let median_hz := median voiced
    if median_hz ≤ 0 then false else
    let cents := voiced.map (fun v => 1200 * Real.logb 2 (v / median_hz))
    if 200 < stdDev cents then false else
    let cents_diff := 1200 * Real.logb 2 (median_hz / ref_median_hz)
    decide (|pymod (cents_diff + 600) 1200 - 600| ≤ 500)
  match (rangeBy max_search_frames onset_step).find? passes with
  | some start => if start < user_times.length then user_times.getD start 0 else 0
  | none => 0

/-- `_build_dtw_features`: per-frame weighted `[log_pitch, voicing, rms]`
vectors, weights `(1.0, 0.5, 0.3)`. -/
def build_dtw_features (pitch : List (Option ℝ)) (rms : List ℝ) : List (ℝ × ℝ × ℝ) :=
  pitch.zipWith (fun p e =>
    match voicedOf p with
    | some v =>
        (clip ((Real.logb 2 (max v 50) - Real.logb 2 50) /
          (Real.logb 2 2000 - Real.logb 2 50)) 0 1 * 1.0,
         1 * 0.5, clip e 0 1 * 0.3)
    | none => (0 * 1.0, 0 * 0.5, clip e 0 1 * 0.3)) rms

/-- `_check_path_sanity` (diagnostic only).  An infinite slope
(`|Δref| < 1e-6`) is modelled as `none`. -/
def check_path_sanity (p : List (ℕ × ℕ)) (ut rt : List ℝ) : PathSanity :=
  if p.length < 2 then ⟨true, [], 1.0⟩ else
  let samples := (p.foldl (fun (acc : List (ℝ × ℝ) × ℝ) q =>
    let u_t := ut.getD q.1 0
    let r_t := rt.getD q.2 0
    if 1.0 ≤ u_t - acc.2 then (acc.1 ++ [(u_t, r_t)], u_t) else acc)
    ([], -999.0)).1
  if samples.length < 2 then ⟨true, [], 1.0⟩ else
  let pairs := samples.zip samples.tail
  let slopes : List (Option ℝ) := pairs.map (fun w =>
    let du := w.2.1 - w.1.1
    let dr := w.2.2 - w.1.2
    if |dr| < 1e-6 then none else some (du / dr))
  let drift := (pairs.zip slopes).filterMap (fun e =>
    let sl := e.2
    let bad := match sl with
      | none => true
      | some v => decide (v < 0.5 ∨ 2.0 < v)
    if bad then
      some ⟨roundTo 2 e.1.2.1, roundTo 2 e.1.2.2, sl.map (roundTo 3)⟩
    else none)
  let finite := slopes.filterMap id
  let avg := if finite = [] then 1.0 else mean finite
  ⟨drift.isEmpty, drift, roundTo 3 avg⟩

/-! ## processing.py: `align_features`

The stages around the external `fastdtw` call. -/

def max_ref_dur (u : Features) : ℝ := u.duration_s * 1.2 + 5.0

/-- Step (a): trim condition and cut index for the reference. -/
def refCutCond (u r : Features) : Prop := max_ref_dur u < r.duration_s ∧ r.pitch_times ≠ []

open Classical in
def cut_idx (u r : Features) : Option ℕ :=
  if refCutCond u r then
    some ((r.pitch_times.findIdx? (fun t => decide (max_ref_dur u < t))).getD r.pitch_times.length)
  else none

def refPitchT (u r : Features) : List (Option ℝ) :=
  match cut_idx u r with
  | some k => r.pitch_values.take k
  | none => r.pitch_values

/-- `ref_times_raw[:cut_idx] if cut_idx else ref_times_raw` — note that a
`cut_idx` of 0 is falsy in Python and leaves the list unsliced. -/
def refTimesT (u r : Features) : List ℝ :=
  match cut_idx u r with
  | some (k + 1) => r.pitch_times.take (k + 1)
  | _ => r.pitch_times

def refRmsCutCond (u r : Features) : Prop :=
  (∃ k, cut_idx u r = some (k + 1)) ∧ r.rms_times ≠ []

def rms_cut (u r : Features) : ℕ :=
  (r.rms_times.findIdx? (fun t => decide (max_ref_dur u < t))).getD r.rms_times.length

open Classical in
def refRmsT (u r : Features) : List ℝ :=
  if refRmsCutCond u r then r.rms_values.take (rms_cut u r) else r.rms_values

open Classical in
def refRmsTimesT (u r : Features) : List ℝ :=
  if refRmsCutCond u r then r.rms_times.take (rms_cut u r) else r.rms_times

/-- Step (d): Layer 1 onset detection. -/
def singing_onset (u r : Features) : ℝ :=
  detect_singing_onset u.pitch_values u.pitch_times (refPitchT u r) (refTimesT u r)

def trim_idx (u r : Features) : ℕ :=
  (u.pitch_times.findIdx? (fun t => decide (singing_onset u r ≤ t))).getD 0

/-- Step (e): frames trimmed from the user arrays before DTW. -/
def user_frame_offset (u r : Features) : ℕ :=
  if 0.2 < singing_onset u r ∧ u.pitch_times ≠ [] ∧ 0 < trim_idx u r ∧
      trim_idx u r < u.pitch_values.length
  then trim_idx u r else 0

def userPitchDtw (u r : Features) : List (Option ℝ) := u.pitch_values.drop (user_frame_offset u r)

def userTimesDtw (u r : Features) : List ℝ := u.pitch_times.drop (user_frame_offset u r)

/-- Step (f): the 3-D sequences handed to the aligner. -/
def userSeq (u r : Features) : List (ℝ × ℝ × ℝ) :=
  build_dtw_features (userPitchDtw u r)
    ((userTimesDtw u r).map (interpPt u.rms_times u.rms_values))

def refSeq (u r : Features) : List (ℝ × ℝ × ℝ) :=
  build_dtw_features (refPitchT u r)
    ((refTimesT u r).map (interpPt (refRmsTimesT u r) (refRmsT u r)))

/-! ## The aligner, modelled from the spec -/

def dist3 (a b : ℝ × ℝ × ℝ) : ℝ :=
  Real.sqrt ((a.1 - b.1) ^ 2 + (a.2.1 - b.2.1) ^ 2 + (a.2.2 - b.2.2) ^ 2)

def pathCost (useq rseq : List (ℝ × ℝ × ℝ)) (p : List (ℕ × ℕ)) : ℝ :=
  (p.map (fun q => dist3 (useq.getD q.1 (0, 0, 0)) (rseq.getD q.2 (0, 0, 0)))).sum

def dtwStep (a b : ℕ × ℕ) : Prop :=
  (b.1 = a.1 + 1 ∧ b.2 = a.2) ∨ (b.1 = a.1 ∧ b.2 = a.2 + 1) ∨
  (b.1 = a.1 + 1 ∧ b.2 = a.2 + 1)

def ValidWarpPath (n m : ℕ) (p : List (ℕ × ℕ)) : Prop :=
  p.head? = some (0, 0) ∧ p.getLast? = some (n - 1, m - 1) ∧ List.Chain' dtwStep p

/-- Modelled from the spec: the external `fastdtw` call (not part of this
repository).  "Given two 3-D weighted sequences return a monotonic path
and scalar distance minimizing the sum of per-pair Euclidean distances
along the path"; "an empty user or reference yields an empty path and
distance 0". -/
def DTWSpec (useq rseq : List (ℝ × ℝ × ℝ)) (p : List (ℕ × ℕ)) (d : ℝ) : Prop :=
  if useq = [] ∨ rseq = [] then p = [] ∧ d = 0
  else ValidWarpPath useq.length rseq.length p ∧ d = pathCost useq rseq p ∧
    ∀ q, ValidWarpPath useq.length rseq.length q → pathCost useq rseq p ≤ pathCost useq rseq q

/-- Step (h): shift user indices back by the trim offset. -/
def shiftPath (off : ℕ) (p : List (ℕ × ℕ)) : List (ℕ × ℕ) :=
  if 0 < off then p.map (fun q => (q.1 + off, q.2)) else p

/-- Step (i), pitch: per-pair deviation in cents, octave-folded, rounded
to 2 decimals; `none` when either end is out of range, unvoiced or ≤ 0. -/
def pitchDevPair (user_pitch ref_pitch : List (Option ℝ)) (q : ℕ × ℕ) : Option ℝ :=
  match user_pitch.getD q.1 none, ref_pitch.getD q.2 none with
  | some uf, some rf =>
      if 0 < uf ∧ 0 < rf then
        some (roundTo 2 (pymod (1200 * Real.logb 2 (uf / rf) + 600) 1200 - 600))
      else none
  | _, _ => none

def pitchDevs (up rp : List (Option ℝ)) (p : List (ℕ × ℕ)) : List (Option ℝ) :=
  p.map (pitchDevPair up rp)

/-- Step (i), timing: raw per-pair offset `u_t - r_t` (out-of-range
indices contribute 0.0, as in the source). -/
def timingPair (ut rt : List ℝ) (q : ℕ × ℕ) : ℝ := ut.getD q.1 0 - rt.getD q.2 0

def rawTimings (ut rt : List ℝ) (p : List (ℕ × ℕ)) : List ℝ := p.map (timingPair ut rt)

/-- Step (i), energy: user/ref RMS ratio by nearest RMS-grid time, `none`
when the reference energy is ≤ 1e-6. -/
def energyPair (ut rt urms urmst rrms rrmst : List ℝ) (q : ℕ × ℕ) : Option ℝ :=
  let u_t := ut.getD q.1 0
  let r_t := rt.getD q.2 0
  let ui := if q.1 < ut.length then nearestIdx urmst u_t else 0
  let ri := if q.2 < rt.length then nearestIdx rrmst r_t else 0
  let ue := urms.getD ui 0
  let re := rrms.getD ri 0
  if 1e-6 < re then some (roundTo 4 (ue / re)) else none

def energyRatios (ut rt urms urmst rrms rrmst : List ℝ) (p : List (ℕ × ℕ)) : List (Option ℝ) :=
  p.map (energyPair ut rt urms urmst rrms rrmst)

/-- Step (j): the comparison key of the dedup pass — `abs(dev)` with the
unvoiced marker counting as 999. -/
def aDev : Option ℝ → ℝ
  | none => 999
  | some d => |d|

/-- One iteration of the dedup loop: `dedup[u_idx]` is created on first
sight and replaced when the new pair deviates strictly less. -/
def dedupStep (devs : List (Option ℝ)) (acc : List (ℕ × ℕ)) (e : ℕ × (ℕ × ℕ)) : List (ℕ × ℕ) :=
  match acc.find? (fun x => x.1 == e.2.1) with
  | none => acc ++ [(e.2.1, e.1)]
  | some x0 =>
      if aDev (devs.getD e.1 none) < aDev (devs.getD x0.2 none) then
        acc.map (fun x => if x.1 == e.2.1 then (e.2.1, e.1) else x)
      else acc

def dedupAssoc (p : List (ℕ × ℕ)) (devs : List (Option ℝ)) : List (ℕ × ℕ) :=
  p.enum.foldl (dedupStep devs) []

/-- `keep = sorted(dedup.values())`. -/
def keepIdxs (p : List (ℕ × ℕ)) (devs : List (Option ℝ)) : List ℕ :=
  List.insertionSort (· ≤ ·) ((dedupAssoc p devs).map Prod.snd)

/-- Step (h): the path with user indices shifted back. -/
def alignPath (u r : Features) (p : List (ℕ × ℕ)) : List (ℕ × ℕ) :=
  shiftPath (user_frame_offset u r) p

def alignDevs (u r : Features) (p : List (ℕ × ℕ)) : List (Option ℝ) :=
  pitchDevs u.pitch_values (refPitchT u r) (alignPath u r p)

def alignRaws (u r : Features) (p : List (ℕ × ℕ)) : List ℝ :=
  rawTimings u.pitch_times (refTimesT u r) (alignPath u r p)

def alignEns (u r : Features) (p : List (ℕ × ℕ)) : List (Option ℝ) :=
  energyRatios u.pitch_times (refTimesT u r) u.rms_values u.rms_times
    (refRmsT u r) (refRmsTimesT u r) (alignPath u r p)

def alignKeep (u r : Features) (p : List (ℕ × ℕ)) : List ℕ :=
  keepIdxs (alignPath u r p) (alignDevs u r p)

def alignPathD (u r : Features) (p : List (ℕ × ℕ)) : List (ℕ × ℕ) :=
  (alignKeep u r p).map (fun i => (alignPath u r p).getD i (0, 0))

def alignRawsD (u r : Features) (p : List (ℕ × ℕ)) : List ℝ :=
  (alignKeep u r p).map (fun i => (alignRaws u r p).getD i 0)

/-- Steps (h)-(m) of `align_features`, parameterised by the path and raw
distance produced by the aligner (`DTWSpec`). -/
def align_rest (u r : Features) (p : List (ℕ × ℕ)) (dist : ℝ) : Alignment :=
  { path := alignPathD u r p
    dtw_distance := roundTo 4 dist
    pitch_deviations := (alignKeep u r p).map (fun i => (alignDevs u r p).getD i none)
    timing_offsets := (alignRawsD u r p).map (fun v => roundTo 4 (v - median (alignRawsD u r p)))
    energy_ratios := (alignKeep u r p).map (fun i => (alignEns u r p).getD i none)
    path_sanity := check_path_sanity (alignPathD u r p) u.pitch_times (refTimesT u r) }

/-- `align_features` as a relation: some aligner output consistent with
`DTWSpec` was post-processed by `align_rest`. -/
def AlignSpec (u r : Features) (a : Alignment) : Prop :=
  ∃ p d, DTWSpec (userSeq u r) (refSeq u r) p d ∧ a = align_rest u r p d

/-! ## scoring.py: note-name helpers -/

def noteNames : List String :=
  ["Do", "Do#", "Re", "Re#", "Mi", "Fa", "Fa#", "Sol", "Sol#", "La", "La#", "Si"]

/-- `_hz_to_note` (guards for `None`/NaN are at the `Option` boundary of
each call site; all actual arguments are medians of positive reals). -/
def hz_to_note (f : ℝ) : Option String :=
  if f ≤ 0 then none else
  let midi := rEven (12 * Real.logb 2 (f / 440)) + 69
  some ((noteNames.getD (midi.emod 12).toNat "") ++ toString (midi.ediv 12 - 1))

/-- Split a note string into its leading name and trailing
digit-or-minus run, as `_note_class` / `_octave_num` do. -/
def noteSplit (str : String) : String × String :=
  let rev := str.toList.reverse
  let suffRev := rev.takeWhile (fun c => c.isDigit || c == '-')
  (String.mk (rev.drop suffRev.length).reverse, String.mk suffRev.reverse)

def note_class (s : Option String) : Option String :=
  match s with
  | none => none
  | some str =>
      if str = "" then none
      else if (noteSplit str).1 = "" then none
      else some (noteSplit str).1

def parseNatAux : List Char → ℕ → ℕ
  | [], acc => acc
  | c :: rest, acc => parseNatAux rest (acc * 10 + (c.toNat - 48))

/-- Python `int(...)` on a digit-or-minus run: the digits as an integer,
`none` when the string is not a valid integer literal (`ValueError`). -/
def strToIntM (str : String) : Option ℤ :=
  match str.toList with
  | [] => none
  | '-' :: rest =>
      if rest ≠ [] ∧ rest.all Char.isDigit then some (-(parseNatAux rest 0 : ℤ)) else none
  | cs => if cs.all Char.isDigit then some ((parseNatAux cs 0 : ℤ)) else none

def octave_num (s : Option String) : Option ℤ :=
  match s with
  | none => none
  | some str => if str = "" then none else strToIntM (noteSplit str).2

/-- `_median_note`: dominant note of the voiced frames inside a window. -/
def median_note (pv : List (Option ℝ)) (pt : List ℝ) (t0 t1 : ℝ) : Option String :=
  let freqs := (pv.zip pt).filterMap (fun e =>
    if e.2 < t0 ∨ t1 ≤ e.2 then none else voicedOf e.1)
  if freqs = [] then none else hz_to_note (median freqs)

/-! ## scoring.py: note extraction -/

/-- Frame indices coinciding (within 50 ms) with a detected onset. -/
def onsetFrames (onsets pt : List ℝ) : List ℕ :=
  if onsets = [] ∨ pt = [] then [] else
  onsets.filterMap (fun ot =>
    let idx := nearestIdx pt ot
    if |pt.getD idx 0 - ot| < 0.05 then some idx else none)

/-- Frame indices coinciding with an RMS energy dip
(`rms[i] < 0.7*rms[i-1]` and `rms[i+1] > 1.3*rms[i]`). -/
def energyDipFrames (rv rt pt : List ℝ) : List ℕ :=
  if rv = [] ∨ rt = [] ∨ pt = [] then [] else
  (List.range' 1 (rv.length - 2)).filterMap (fun ri =>
    let prev := rv.getD (ri - 1) 0
    let cur := rv.getD ri 0
    let nxt := rv.getD (ri + 1) 0
    if 0 < prev ∧ cur < prev * 0.7 ∧ cur * 1.3 < nxt then
      let dip := rt.getD ri 0
      let pidx := nearestIdx pt dip
      if |pt.getD pidx 0 - dip| < 0.05 then some pidx else none
    else none)

structure ExtractState where
  notes : List Note
  current_freqs : List ℝ
  current_start : Option ℝ

def emitNote (start t : ℝ) (freqs : List ℝ) : Note :=
  { startTime := roundTo 3 start
    endTime := roundTo 3 t
    note := hz_to_note (median freqs)
    hz := roundTo 1 (median freqs) }

/-- One frame of the `_extract_notes` walk. -/
def extractStep (oF dF : List ℕ) (st : ExtractState) (e : ℕ × (Option ℝ × ℝ)) : ExtractState :=
  let t := e.2.2
  match voicedOf e.2.1 with
  | none =>
      match st.current_start with
      | some s =>
          if st.current_freqs ≠ [] then
            if 0.12 ≤ t - s then
              ⟨st.notes ++ [emitNote s t st.current_freqs], [], none⟩
            else ⟨st.notes, [], none⟩
          else st
      | none => st
  | some v =>
      match st.current_start with
      | none => ⟨st.notes, [v], some t⟩
      | some s =>
          let note_dur := t - s
          let has_onset := e.1 ∈ oF ∧ 0.12 ≤ note_dur
          let has_dip := e.1 ∈ dF ∧ 0.12 ≤ note_dur
          let median_hz := median st.current_freqs
          let cents_diff := if 0 < median_hz then |1200 * Real.logb 2 (v / median_hz)| else 0
          if 100 < cents_diff ∨ has_onset ∨ has_dip then
            if 0.12 ≤ note_dur then
              ⟨st.notes ++ [emitNote s t st.current_freqs], [v], some t⟩
            else ⟨st.notes, [v], some t⟩
          else ⟨st.notes, st.current_freqs ++ [v], st.current_start⟩

/-- The enumerated frames visited by the walk: `break` at the first
`t > max_time_s`. -/
def framesFor (pv : List (Option ℝ)) (pt : List ℝ) (maxT : Option ℝ) :
    List (ℕ × (Option ℝ × ℝ)) :=
  match maxT with
  | none => (pv.zip pt).enum
  | some M => (pv.zip pt).enum.takeWhile (fun e => decide (e.2.2 ≤ M))

/-- `_extract_notes`. -/
def extract_notes (pv : List (Option ℝ)) (pt onsets rv rt : List ℝ) (maxT : Option ℝ) :
    List Note :=
  let st := (framesFor pv pt maxT).foldl
    (extractStep (onsetFrames onsets pt) (energyDipFrames rv rt pt)) ⟨[], [], none⟩
  match st.current_start with
  | some s =>
      if st.current_freqs ≠ [] then
        let last_t := pt.getLast?.getD s
        if 0.12 ≤ last_t - s then st.notes ++ [emitNote s last_t st.current_freqs]
        else st.notes
      else st.notes
  | none => st.notes

/-! ## scoring.py: note alignment -/

def cents_between (a b : ℝ) : ℝ :=
  if a ≤ 0 ∨ b ≤ 0 then 9999 else |1200 * Real.logb 2 (a / b)|

def defNote : Note := ⟨0, 0, none, 0⟩

/-- The inner candidate search of `_align_notes`: nearest-in-time user
note within ±2 s among at most 8 candidates from the cursor. -/
def searchBest (un : List Note) (rs : ℝ) (u0 : ℕ) : Option (ℕ × ℝ) :=
  (List.range' u0 (min (u0 + 8) un.length - u0)).foldl
    (fun best j =>
      let td := |(un.getD j defNote).startTime - rs|
      match best with
      | none => if td ≤ 2.0 then some (j, td) else none
      | some b => if td ≤ 2.0 ∧ td < b.2 then some (j, td) else some b)
    none

def nullPair (ridx : ℕ) (ref : Note) : NotePair :=
  { noteIndex := ridx, refNote := ref.note, refStartTime := ref.startTime
    refEndTime := ref.endTime, userNote := none, userStartTime := none
    userEndTime := none, noteMatch := false, pitchClassMatch := none
    octaveDiff := none, centsOff := none, timingOffsetMs := none }

open Classical in
def matchedPair (ridx : ℕ) (ref user : Note) : NotePair :=
  let cents := cents_between ref.hz user.hz
  let nm : Bool := decide (cents ≤ 100)
  let pcm0 : Option Bool :=
    match note_class ref.note, note_class user.note with
    | some a, some b => some (a == b)
    | _, _ => none
  let pcm : Option Bool := if nm ∧ pcm0 ≠ some true then some true else pcm0
  let od : Option ℤ :=
    match octave_num user.note, octave_num ref.note with
    | some a, some b => some (a - b)
    | _, _ => none
  { noteIndex := ridx, refNote := ref.note, refStartTime := ref.startTime
    refEndTime := ref.endTime, userNote := user.note
    userStartTime := some user.startTime, userEndTime := some user.endTime
    noteMatch := nm, pitchClassMatch := pcm, octaveDiff := od
    centsOff := some (roundTo 1 cents)
    timingOffsetMs := some (rEven ((user.startTime - ref.startTime) * 1000)) }

def alignNotesGo (un : List Note) : List Note → ℕ → ℕ → List NotePair
  | [], _, _ => []
  | ref :: rest, ridx, u0 =>
      match searchBest un ref.startTime u0 with
      | some b => matchedPair ridx ref (un.getD b.1 defNote) :: alignNotesGo un rest (ridx + 1) (b.1 + 1)
      | none => nullPair ridx ref :: alignNotesGo un rest (ridx + 1) u0

/-- `_align_notes`. -/
def align_notes (rn un : List Note) : List NotePair := alignNotesGo un rn 0 0

/-! ## scoring.py: sub-scorers -/

def pitchCurve (d : ℝ) : ℝ :=
  if |d| ≤ 100 then 100
  else if 400 ≤ |d| then 0
  else 100 * (1 - (|d| - 100) / (400 - 100))

def score_pitch (devs : List (Option ℝ)) : ℝ :=
  if devs.filterMap (fun d => d.map pitchCurve) = [] then 50
  else mean (devs.filterMap (fun d => d.map pitchCurve))

def timingCurve (t : ℝ) : ℝ :=
  if |t| ≤ 0.5 then 100
  else if 2.0 ≤ |t| then 0
  else 100 * (1 - (|t| - 0.5) / (2.0 - 0.5))

def score_timing (offs : List ℝ) : ℝ :=
  if offs = [] then 50 else mean (offs.map timingCurve)

def dynamicsCurve (e : ℝ) : ℝ :=
  if 0.5 ≤ e ∧ e ≤ 2.0 then 100
  else if e < 0.2 ∨ 3.0 < e then 0
  else if e < 0.5 then 100 * ((e - 0.2) / (0.5 - 0.2))
  else 100 * ((3.0 - e) / (3.0 - 2.0))

def score_dynamics (rats : List (Option ℝ)) : ℝ :=
  if rats.filterMap (fun e => e.map dynamicsCurve) = [] then 50
  else mean (rats.filterMap (fun e => e.map dynamicsCurve))

/-! ## scoring.py: section scores -/

/-- Positions (into the parallel alignment lists) of path pairs whose
user time falls into `[t0, t1)`. -/
def secIdxs (path : List (ℕ × ℕ)) (ut : List ℝ) (t0 t1 : ℝ) : List ℕ :=
  (path.enum.filter (fun e =>
    decide (e.2.1 < ut.length) && decide (t0 ≤ ut.getD e.2.1 0) &&
    decide (ut.getD e.2.1 0 < t1))).map (·.1)

/-- `_compute_section_scores`. -/
def compute_section_scores (a : Alignment) (u r : Features) : List SectionScore :=
  if u.pitch_times = [] then [] else
  let dur := u.pitch_times.getLast?.getD 0
  let ns := (max 1 (rEven (dur / 1.0))).toNat
  let sd := dur / ns
  (List.range ns).map (fun si : ℕ =>
    let t0 := (si : ℝ) * sd
    let t1 := ((si : ℝ) + 1) * sd
    let ks := secIdxs a.path u.pitch_times t0 t1
    let sp := ks.filterMap (fun k => a.pitch_deviations.getD k none)
    let stm := ks.map (fun k => a.timing_offsets.getD k 0)
    let se := ks.filterMap (fun k => a.energy_ratios.getD k none)
    let user_note := median_note u.pitch_values u.pitch_times t0 t1
    let ref_note := median_note r.pitch_values r.pitch_times t0 t1
    let scores : Option (ℝ × ℝ × ℝ) :=
      if sp ≠ [] then
        some (score_pitch (sp.map some), if stm ≠ [] then score_timing stm else 0,
          score_dynamics (se.map some))
      else none
    let nm : Option Bool :=
      match ref_note, user_note with
      | some a, some b => some (a == b)
      | _, _ => none
    let pcm : Option Bool :=
      match ref_note, user_note with
      | some a, some b => some (note_class (some a) == note_class (some b))
      | _, _ => none
    let od : Option ℤ :=
      match ref_note, user_note with
      | some a, some b =>
          match octave_num (some a), octave_num (some b) with
          | some ro, some uo => some (uo - ro)
          | _, _ => none
      | _, _ => none
    { sectionIndex := si
      startTime := roundTo 2 t0
      endTime := roundTo 2 t1
      overallScore := scores.map (fun q => roundTo 1 (q.1 * 0.7 + q.2.1 * 0.15 + q.2.2 * 0.15))
      pitchScore := scores.map (fun q => roundTo 1 q.1)
      timingScore := scores.map (fun q => roundTo 1 q.2.1)
      dynamicsScore := scores.map (fun q => roundTo 1 q.2.2)
      refNote := ref_note
      userNote := user_note
      noteMatch := nm
      pitchClassMatch := pcm
      octaveDiff := od })

/-! ## scoring.py: problem areas -/

structure PAWindow where
  badness : ℝ
  area : ProblemArea

def listMin (l : List ℝ) : ℝ := l.foldr min 0

def listMax (l : List ℝ) : ℝ := l.foldr max 0

/-- The voiced (non-`None`) absolute pitch deviations examined by the
problem-area window starting at `t = k` seconds (`w_pitch`). -/
def paVoiced (a : Alignment) (u : Features) (k : ℕ) : List ℝ :=
  (secIdxs a.path u.pitch_times (k : ℝ) ((k : ℝ) + 2)).filterMap
    (fun i => (a.pitch_deviations.getD i none).map (|·|))

/-- The absolute timing offsets of the window (`w_timing`). -/
def paWT (a : Alignment) (u : Features) (k : ℕ) : List ℝ :=
  (secIdxs a.path u.pitch_times (k : ℝ) ((k : ℝ) + 2)).map
    (fun i => |a.timing_offsets.getD i 0|)

/-- The non-`None` energy ratios of the window (`w_dyn`). -/
def paWD (a : Alignment) (u : Features) (k : ℕ) : List ℝ :=
  (secIdxs a.path u.pitch_times (k : ℝ) ((k : ℝ) + 2)).filterMap
    (fun i => a.energy_ratios.getD i none)

/-- The reference times touched by the window (`w_ref_times`). -/
def paWRT (a : Alignment) (u r : Features) (k : ℕ) : List ℝ :=
  (secIdxs a.path u.pitch_times (k : ℝ) ((k : ℝ) + 2)).filterMap (fun i =>
    if (a.path.getD i (0, 0)).2 < r.pitch_times.length then
      some (r.pitch_times.getD (a.path.getD i (0, 0)).2 0) else none)

def paAvgDev (a : Alignment) (u : Features) (k : ℕ) : ℝ := mean (paVoiced a u k)

def paAvgOff (a : Alignment) (u : Features) (k : ℕ) : ℝ := mean (paWT a u k)

open Classical in
def paAvgRatio (a : Alignment) (u : Features) (k : ℕ) : ℝ :=
  if paWD a u k ≠ [] then mean (paWD a u k) else 1.0

open Classical in
/-- The issue labels attached to the window. -/
def paIssues (a : Alignment) (u : Features) (k : ℕ) : List String :=
  (if 100 * 1.5 < paAvgDev a u k then ["pitch"] else []) ++
  (if 0.5 * 3 < paAvgOff a u k then ["timing"] else []) ++
  (if paAvgRatio a u k < 0.5 * 0.7 ∨ 2.0 * 1.5 < paAvgRatio a u k then ["dynamics"] else [])

open Classical in
/-- The candidate window starting at `t = k` seconds (the loop steps by
`window_s / 2 = 1.0`), or `none` when the gates fail. -/
def paWindow (a : Alignment) (u r : Features) (k : ℕ) : Option PAWindow :=
  if paVoiced a u k = [] then none else
  if paIssues a u k = [] then none else
  some { badness := paAvgDev a u k / 400 * 0.7 + paAvgOff a u k / 2.0 * 0.15 +
           |1 - paAvgRatio a u k| * 0.15
         area := { startTime := roundTo 2 (k : ℝ)
                   endTime := roundTo 2 ((k : ℝ) + 2)
                   issues := paIssues a u k
                   avgPitchDevCents := roundTo 1 (paAvgDev a u k)
                   avgTimingOffsetMs := roundTo 1 (paAvgOff a u k * 1000)
                   avgEnergyRatio := roundTo 3 (paAvgRatio a u k)
                   refStartTime := if paWRT a u r k ≠ [] then
                     some (roundTo 2 (listMin (paWRT a u r k))) else none
                   refEndTime := if paWRT a u r k ≠ [] then
                     some (roundTo 2 (listMax (paWRT a u r k))) else none } }

open Classical in
/-- Number of iterations of `while t + window_s <= duration + 0.01`
with `t = 0, 1, 2, ...`. -/
def paWindowCount (dur : ℝ) : ℕ :=
  if 2.0 ≤ dur + 0.01 then (⌊dur + 0.01 - 2.0⌋).toNat + 1 else 0

/-- The Python overlap test `w.start < s.end and w.end > s.start`. -/
def paOverlap (w s : ProblemArea) : Prop := w.startTime < s.endTime ∧ s.startTime < w.endTime

open Classical in
/-- The greedy selection loop over badness-sorted windows. -/
def greedySelect : List PAWindow → List ProblemArea → List ProblemArea
  | [], sel => sel
  | w :: ws, sel =>
      if 3 ≤ sel.length then sel
      else if ∃ s ∈ sel, paOverlap w.area s then greedySelect ws sel
      else greedySelect ws (sel ++ [w.area])

/-- `_identify_problem_areas`. -/
def identify_problem_areas (a : Alignment) (u r : Features) : List ProblemArea :=
  if u.pitch_times = [] then [] else
  let dur := u.pitch_times.getLast?.getD 0
  let windows := (List.range (paWindowCount dur)).filterMap (paWindow a u r)
  let sorted := List.insertionSort (fun x y : PAWindow => y.badness ≤ x.badness) windows
  greedySelect sorted []

/-! ## scoring.py: `score_recording` -/

def score_recording (u r : Features) (a : Alignment) : ScoreReport :=
  let ps := score_pitch a.pitch_deviations
  let ts := score_timing a.timing_offsets
  let ds := score_dynamics a.energy_ratios
  let rnotes := extract_notes r.pitch_values r.pitch_times r.onset_times r.rms_values
    r.rms_times (some (u.duration_s * 1.2 + 5.0))
  let unotes := extract_notes u.pitch_values u.pitch_times u.onset_times u.rms_values
    u.rms_times none
  { overallScore := roundTo 1 (ps * 0.7 + ts * 0.15 + ds * 0.15)
    pitchScore := roundTo 1 ps
    timingScore := roundTo 1 ts
    dynamicsScore := roundTo 1 ds
    sectionScores := compute_section_scores a u r
    problemAreas := (identify_problem_areas a u r).take 3
    noteComparison := align_notes rnotes unotes }

/-- Two problem areas whose user-time intervals meet at most at an
endpoint (the negation of the source's overlap test). -/
def paSeparated (x y : ProblemArea) : Prop :=
  x.endTime ≤ y.startTime ∨ y.endTime ≤ x.startTime

/-- The badness-descending ordering of the candidate windows. -/
def paSortedWindows (a : Alignment) (u r : Features) : List PAWindow :=
  List.insertionSort (fun x y : PAWindow => y.badness ≤ x.badness)
    ((List.range (paWindowCount (u.pitch_times.getLast?.getD 0))).filterMap (paWindow a u r))

def noteDurOK (n : Note) : Prop := 0.12 ≤ n.endTime - n.startTime

/-! ## C3 counterexample: concrete run -/

def uC3 : Features := ⟨[some (5656856 / 10000)], [0], [], [1], [0], 0.02⟩

def rC3 : Features := ⟨[some 400], [0], [], [1], [0], 0.02⟩

/-! ## C4: deduplication keeps one best pair per user index -/

/-- Absolute cent deviation with the unvoiced marker counting as +∞ (the
comparison order the spec describes; the source's 999 stand-in agrees
with it because folded deviations are bounded by 600). -/
def absCents : Option ℝ → WithTop ℝ
  | none => ⊤
  | some x => (|x| : ℝ)

/-- Invariant of the dedup fold: `acc` holds, for every user index seen
in `done`, exactly one entry `(u, pair_idx)`, pointing at a processed
pair of minimal `aDev`. -/
def DedupInv (devs : List (Option ℝ)) (done : List (ℕ × (ℕ × ℕ)))
    (acc : List (ℕ × ℕ)) : Prop :=
  (∀ e ∈ acc, ∃ en ∈ done, en.1 = e.2 ∧ en.2.1 = e.1) ∧
  (∀ e ∈ acc, ∀ en ∈ done, en.2.1 = e.1 →
    aDev (devs.getD e.2 none) ≤ aDev (devs.getD en.1 none)) ∧
  (∀ en ∈ done, en.2.1 ∈ acc.map Prod.fst) ∧
  (acc.map Prod.fst).Nodup

def uC4 : Features := ⟨[some 440, some 440], [0], [], [1], [0], 0⟩

def rC4 : Features := ⟨[some 440, none], [0], [], [1], [0], 0⟩

def pC4 : List (ℕ × ℕ) := [(0, 0), (0, 1), (1, 1)]

def aW : Alignment := ⟨[(0, 0)], 0, [some 200], [0], [some 1], ⟨true, [], 1⟩⟩

def uW : Features := ⟨[some 440], [0, 2], [], [1], [0], 2⟩

def rW : Features := ⟨[some 440], [0], [], [1], [0], 2⟩

def paW : ProblemArea := ⟨0, 2, ["pitch"], 200, 0, 1, some 0, some 0⟩

def wW : PAWindow := ⟨0.35, paW⟩

def uC9 : Features := ⟨[some 427, some 427], [0, 0.12], [], [1, 1], [0, 0.12], 0.12⟩

def rC9 : Features := ⟨[some 440, some 440], [0, 0.12], [], [1, 1], [0, 0.12], 0.12⟩

def aC9 : Alignment := ⟨[], 0, [], [], [], ⟨true, [], 1⟩⟩

def userNoteC9 : Note := ⟨0, 0.12, some "Sol#4", 427⟩

def refNoteC9 : Note := ⟨0, 0.12, some "La4", 440⟩

def secC9 : SectionScore :=
  ⟨0, 0, 0.12, none, none, none, none, some "La4", some "Sol#4", some false, some false, some 0⟩

def uE : Features := ⟨[], [], [], [0], [0], 0⟩

theorem rEven_eq_round {x : ℝ} (h : Int.fract x ≠ 1 / 2) : rEven x = round x := by
  unfold rEven
  rw [if_neg h]

theorem eq_floor_add_half {x : ℝ} (h : Int.fract x = 1 / 2) : x = (⌊x⌋ : ℝ) + 1 / 2 := by
  have := Int.fract_add_floor x
  linarith

theorem rEven_intCast (n : ℤ) : rEven (n : ℝ) = n := by
  have h : Int.fract (n : ℝ) = 0 := Int.fract_intCast n
  rw [rEven_eq_round (by rw [h]; norm_num)]
  exact round_intCast n

theorem rEven_tie (k : ℤ) : rEven ((k : ℝ) + 1 / 2) = if Even k then k else k + 1 := by
  have hfr : Int.fract ((k : ℝ) + 1 / 2) = 1 / 2 := by
    rw [Int.fract_int_add, Int.fract_eq_self.mpr (by norm_num)]
  unfold rEven
  rw [if_pos hfr]
  rcases Int.even_or_odd k with ⟨m, hm⟩ | ⟨m, hm⟩
  · subst hm
    have h1 : ((m + m : ℤ) : ℝ) + 1 / 2 = 2 * ((m : ℝ) + 1 / 4) := by push_cast; ring
    have h2 : round ((m : ℝ) + 1 / 4) = m := by
      rw [add_comm, round_add_int, round_eq]
      have h3 : ⌊(1 : ℝ) / 4 + 1 / 2⌋ = 0 := by
        rw [Int.floor_eq_iff]
        constructor <;> norm_num
      rw [h3]; ring
    have hev : Even (m + m) := ⟨m, rfl⟩
    rw [h1, mul_div_cancel_left₀ _ (by norm_num : (2:ℝ) ≠ 0), h2, if_pos hev]
    ring
  · subst hm
    have h1 : ((2 * m + 1 : ℤ) : ℝ) + 1 / 2 = 2 * ((m : ℝ) + 3 / 4) := by push_cast; ring
    have h2 : round ((m : ℝ) + 3 / 4) = m + 1 := by
      rw [add_comm, round_add_int, round_eq]
      have h3 : ⌊(3 : ℝ) / 4 + 1 / 2⌋ = 1 := by
        rw [Int.floor_eq_iff]
        constructor <;> norm_num
      rw [h3]; ring
    have hev : ¬ Even (2 * m + 1) := by simp only [Int.even_iff]; omega
    rw [h1, mul_div_cancel_left₀ _ (by norm_num : (2:ℝ) ≠ 0), h2, if_neg hev]
    ring

theorem rEven_eq_tie (x : ℝ) (h : Int.fract x = 1 / 2) :
    rEven x = if Even ⌊x⌋ then ⌊x⌋ else ⌊x⌋ + 1 := by
  conv_lhs => rw [eq_floor_add_half h]
  exact rEven_tie ⌊x⌋

theorem rEven_le (x : ℝ) : (rEven x : ℝ) ≤ x + 1 / 2 := by
  by_cases h : Int.fract x = 1 / 2
  · have hx := eq_floor_add_half h
    rw [rEven_eq_tie x h]
    by_cases hev : Even ⌊x⌋
    · rw [if_pos hev]; linarith
    · rw [if_neg hev]; push_cast; linarith
  · rw [rEven_eq_round h]
    have := abs_sub_round x
    rw [abs_le] at this
    linarith [this.1]

theorem le_rEven (x : ℝ) : x - 1 / 2 ≤ (rEven x : ℝ) := by
  by_cases h : Int.fract x = 1 / 2
  · have hx := eq_floor_add_half h
    rw [rEven_eq_tie x h]
    by_cases hev : Even ⌊x⌋
    · rw [if_pos hev]; linarith
    · rw [if_neg hev]; push_cast; linarith
  · rw [rEven_eq_round h]
    have := abs_sub_round x
    rw [abs_le] at this
    linarith [this.2]

theorem rEven_mono {x y : ℝ} (h : x ≤ y) : rEven x ≤ rEven y := by
  by_contra hc
  push_neg at hc
  have h1 : (rEven y : ℝ) + 1 ≤ (rEven x : ℝ) := by exact_mod_cast Int.add_one_le_iff.mpr hc
  have h2 := rEven_le x
  have h3 := le_rEven y
  have hxy : x = y := le_antisymm h (by linarith)
  rw [hxy] at hc
  exact lt_irrefl _ hc

theorem rEven_eq_of_abs_lt {x : ℝ} {n : ℤ} (h : |x - (n : ℝ)| < 1 / 2) : rEven x = n := by
  rw [abs_lt] at h
  have hfr : Int.fract x ≠ 1 / 2 := by
    intro hf
    have hx := eq_floor_add_half hf
    have h1 : ((⌊x⌋ - n : ℤ) : ℝ) = x - n - 1 / 2 := by push_cast; linarith
    have h2 : (-1 : ℝ) < ((⌊x⌋ - n : ℤ) : ℝ) := by rw [h1]; linarith [h.1]
    have h3 : ((⌊x⌋ - n : ℤ) : ℝ) < 0 := by rw [h1]; linarith [h.2]
    have h4 : (-1 : ℤ) < ⌊x⌋ - n := by exact_mod_cast h2
    have h5 : ⌊x⌋ - n < 0 := by exact_mod_cast h3
    omega
  rw [rEven_eq_round hfr, round_eq, Int.floor_eq_iff]
  constructor
  · linarith [h.1]
  · linarith [h.2]

theorem rEven_neg (x : ℝ) : rEven (-x) = -rEven x := by
  by_cases h : Int.fract x = 1 / 2
  · have hx := eq_floor_add_half h
    have h1 := rEven_eq_tie x h
    have h2 : rEven (-x) = if Even (-⌊x⌋ - 1) then -⌊x⌋ - 1 else -⌊x⌋ - 1 + 1 := by
      have hnx : -x = ((-⌊x⌋ - 1 : ℤ) : ℝ) + 1 / 2 := by push_cast; linarith
      rw [hnx, rEven_tie]
    have he : Even (-⌊x⌋ - 1) ↔ ¬ Even ⌊x⌋ := by
      simp only [Int.even_iff]
      omega
    by_cases hev : Even ⌊x⌋
    · rw [h1, h2, if_pos hev, if_neg (fun hc => (he.mp hc) hev)]
      ring
    · rw [h1, h2, if_neg hev, if_pos (he.mpr hev)]
      ring
  · by_cases h0 : Int.fract x = 0
    · obtain ⟨n, hn⟩ : ∃ n : ℤ, x = (n : ℝ) :=
        ⟨⌊x⌋, by have := Int.fract_add_floor x; rw [h0] at this; linarith⟩
      subst hn
      rw [show -(n : ℝ) = ((-n : ℤ) : ℝ) by push_cast; ring, rEven_intCast, rEven_intCast]
    · have hfn : Int.fract (-x) = 1 - Int.fract x := Int.fract_neg h0
      have hne : Int.fract (-x) ≠ 1 / 2 := by rw [hfn]; intro hc; apply h; linarith
      rw [rEven_eq_round hne, rEven_eq_round h, round_eq, round_eq]
      have hlo : ((round x : ℤ) : ℝ) ≤ x + 1 / 2 := by
        rw [round_eq]; exact Int.floor_le _
      have hhi : x + 1 / 2 < (round x : ℤ) + 1 := by
        rw [round_eq]; exact Int.lt_floor_add_one _
      have hstrict : ((round x : ℤ) : ℝ) ≠ x + 1 / 2 := by
        intro hc
        apply h
        have hx2 : x = ((round x - 1 : ℤ) : ℝ) + 1 / 2 := by push_cast; linarith
        rw [hx2, Int.fract_int_add, Int.fract_eq_self.mpr (by norm_num)]
      have hlo2 : ((round x : ℤ) : ℝ) < x + 1 / 2 := lt_of_le_of_ne hlo hstrict
      have hfl : ⌊-x + 1 / 2⌋ = -round x := by
        rw [Int.floor_eq_iff]
        constructor
        · push_cast
          linarith
        · push_cast
          linarith
      rw [round_eq] at hfl
      exact hfl

theorem rEven_add_two_int (x : ℝ) (m : ℤ) : rEven (x + 2 * (m : ℝ)) = rEven x + 2 * m := by
  have hfr : Int.fract (x + 2 * (m : ℝ)) = Int.fract x := by
    rw [show x + 2 * (m : ℝ) = x + ((2 * m : ℤ) : ℝ) by push_cast; ring, Int.fract_add_int]
  by_cases h : Int.fract x = 1 / 2
  · unfold rEven
    rw [if_pos (hfr.trans h), if_pos h]
    have h1 : (x + 2 * (m : ℝ)) / 2 = x / 2 + (m : ℝ) := by ring
    rw [h1, round_add_int]
    ring
  · rw [rEven_eq_round (by rw [hfr]; exact h), rEven_eq_round h,
      show x + 2 * (m : ℝ) = x + ((2 * m : ℤ) : ℝ) by push_cast; ring, round_add_int]

theorem roundTo_exact (n : ℤ) {d : ℕ} {x : ℝ} (h : x * 10 ^ d = (n : ℝ)) : roundTo d x = x := by
  have hp : (0 : ℝ) < 10 ^ d := by positivity
  rw [roundTo, h, rEven_intCast, ← h]
  field_simp

theorem roundTo_mono (d : ℕ) {x y : ℝ} (h : x ≤ y) : roundTo d x ≤ roundTo d y := by
  have hp : (0 : ℝ) < 10 ^ d := by positivity
  have := rEven_mono (mul_le_mul_of_nonneg_right h (le_of_lt hp))
  exact (div_le_div_iff_of_pos_right hp).mpr (by exact_mod_cast this)

theorem roundTo_neg (d : ℕ) (x : ℝ) : roundTo d (-x) = -roundTo d x := by
  rw [roundTo, roundTo, show -x * 10 ^ d = -(x * 10 ^ d) by ring, rEven_neg]
  push_cast
  ring

theorem roundTo_le (d : ℕ) (x : ℝ) : roundTo d x ≤ x + 1 / 2 / 10 ^ d := by
  have hp : (0 : ℝ) < 10 ^ d := by positivity
  have h1 := rEven_le (x * 10 ^ d)
  rw [roundTo, div_le_iff₀ hp]
  calc (rEven (x * 10 ^ d) : ℝ) ≤ x * 10 ^ d + 1 / 2 := h1
    _ = (x + 1 / 2 / 10 ^ d) * 10 ^ d := by field_simp; ring

theorem le_roundTo (d : ℕ) (x : ℝ) : x - 1 / 2 / 10 ^ d ≤ roundTo d x := by
  have hp : (0 : ℝ) < 10 ^ d := by positivity
  have h1 := le_rEven (x * 10 ^ d)
  rw [roundTo, le_div_iff₀ hp]
  calc (x - 1 / 2 / 10 ^ d) * 10 ^ d = x * 10 ^ d - 1 / 2 := by field_simp; ring
    _ ≤ (rEven (x * 10 ^ d) : ℝ) := h1

/-! ## Generic score-range lemmas -/

theorem mean_range {l : List ℝ} (hne : l ≠ []) (h : ∀ x ∈ l, 0 ≤ x ∧ x ≤ 100) :
    0 ≤ mean l ∧ mean l ≤ 100 := by
  have hlen : (0 : ℝ) < l.length := by
    have : l.length ≠ 0 := fun hc => hne (List.eq_nil_of_length_eq_zero hc)
    positivity
  have hsum0 : 0 ≤ l.sum := List.sum_nonneg (fun x hx => (h x hx).1)
  have hsum1 : l.sum ≤ (l.length : ℝ) * 100 := by
    calc l.sum ≤ l.length • (100 : ℝ) := List.sum_le_card_nsmul l 100 (fun x hx => (h x hx).2)
      _ = (l.length : ℝ) * 100 := by rw [nsmul_eq_mul]
  constructor
  · exact div_nonneg hsum0 (le_of_lt hlen)
  · rw [mean, div_le_iff₀ hlen]
    linarith

theorem pitchCurve_range (d : ℝ) : 0 ≤ pitchCurve d ∧ pitchCurve d ≤ 100 := by
  unfold pitchCurve
  split_ifs with h1 h2
  · norm_num
  · norm_num
  · push_neg at h1 h2
    have hr0 : 0 ≤ (|d| - 100) / (400 - 100) := by
      apply div_nonneg <;> linarith
    have hr1 : (|d| - 100) / (400 - 100) ≤ 1 := by
      rw [div_le_one (by norm_num)]
      linarith
    constructor <;> nlinarith

theorem timingCurve_range (t : ℝ) : 0 ≤ timingCurve t ∧ timingCurve t ≤ 100 := by
  unfold timingCurve
  split_ifs with h1 h2
  · norm_num
  · norm_num
  · push_neg at h1 h2
    have hr0 : 0 ≤ (|t| - 0.5) / (2.0 - 0.5) := by
      apply div_nonneg <;> [linarith; norm_num]
    have hr1 : (|t| - 0.5) / (2.0 - 0.5) ≤ 1 := by
      rw [div_le_one (by norm_num)]
      linarith
    constructor <;> nlinarith

theorem dynamicsCurve_range (e : ℝ) : 0 ≤ dynamicsCurve e ∧ dynamicsCurve e ≤ 100 := by
  unfold dynamicsCurve
  split_ifs with h1 h2 h3
  · norm_num
  · norm_num
  · push_neg at h1 h2
    have hb := h2.1
    have hr0 : 0 ≤ (e - 0.2) / (0.5 - 0.2) := by
      apply div_nonneg <;> [linarith; norm_num]
    have hr1 : (e - 0.2) / (0.5 - 0.2) ≤ 1 := by
      rw [div_le_one (by norm_num)]
      linarith
    constructor <;> nlinarith
  · push_neg at h1 h2 h3
    have hb := h2.2
    have he2 : 2.0 < e := h1 h3
    have hr0 : 0 ≤ (3.0 - e) / (3.0 - 2.0) := by
      apply div_nonneg <;> [linarith; norm_num]
    have hr1 : (3.0 - e) / (3.0 - 2.0) ≤ 1 := by
      rw [div_le_one (by norm_num)]
      linarith
    constructor <;> nlinarith

theorem score_pitch_range (devs : List (Option ℝ)) :
    0 ≤ score_pitch devs ∧ score_pitch devs ≤ 100 := by
  unfold score_pitch
  split_ifs with h
  · norm_num
  · apply mean_range h
    intro x hx
    obtain ⟨d, _, hd⟩ := List.mem_filterMap.mp hx
    obtain ⟨v, _, hv⟩ := Option.map_eq_some'.mp hd
    exact hv ▸ pitchCurve_range v

theorem score_timing_range (offs : List ℝ) :
    0 ≤ score_timing offs ∧ score_timing offs ≤ 100 := by
  unfold score_timing
  split_ifs with h
  · norm_num
  · apply mean_range (by simpa using h)
    intro x hx
    obtain ⟨t, _, ht⟩ := List.mem_map.mp hx
    exact ht ▸ timingCurve_range t

theorem score_dynamics_range (rats : List (Option ℝ)) :
    0 ≤ score_dynamics rats ∧ score_dynamics rats ≤ 100 := by
  unfold score_dynamics
  split_ifs with h
  · norm_num
  · apply mean_range h
    intro x hx
    obtain ⟨d, _, hd⟩ := List.mem_filterMap.mp hx
    obtain ⟨v, _, hv⟩ := Option.map_eq_some'.mp hd
    exact hv ▸ dynamicsCurve_range v

theorem roundTo_zero (d : ℕ) : roundTo d 0 = 0 := by
  apply roundTo_exact 0
  norm_num

theorem roundTo_range_0_100 {x : ℝ} (d : ℕ) (h0 : 0 ≤ x) (h1 : x ≤ 100) :
    0 ≤ roundTo d x ∧ roundTo d x ≤ 100 := by
  constructor
  · calc (0 : ℝ) = roundTo d 0 := (roundTo_zero d).symm
      _ ≤ roundTo d x := roundTo_mono d h0
  · have h100 : roundTo d 100 = 100 := by
      apply roundTo_exact (n := 100 * 10 ^ d)
      push_cast
      ring
    calc roundTo d x ≤ roundTo d 100 := roundTo_mono d h1
      _ = 100 := h100

/-- C6: for all inputs, the four top-level report fields `pitchScore`,
`timingScore`, `dynamicsScore` and `overallScore` each lie in the closed
interval [0, 100]. -/
theorem C6_report_scores_in_range (u r : Features) (a : Alignment) :
    (0 ≤ (score_recording u r a).pitchScore ∧ (score_recording u r a).pitchScore ≤ 100) ∧
    (0 ≤ (score_recording u r a).timingScore ∧ (score_recording u r a).timingScore ≤ 100) ∧
    (0 ≤ (score_recording u r a).dynamicsScore ∧ (score_recording u r a).dynamicsScore ≤ 100) ∧
    (0 ≤ (score_recording u r a).overallScore ∧ (score_recording u r a).overallScore ≤ 100) := by
  have hp := score_pitch_range a.pitch_deviations
  have ht := score_timing_range a.timing_offsets
  have hd := score_dynamics_range a.energy_ratios
  have e1 : (score_recording u r a).pitchScore = roundTo 1 (score_pitch a.pitch_deviations) := rfl
  have e2 : (score_recording u r a).timingScore = roundTo 1 (score_timing a.timing_offsets) := rfl
  have e3 : (score_recording u r a).dynamicsScore = roundTo 1 (score_dynamics a.energy_ratios) := rfl
  have e4 : (score_recording u r a).overallScore = roundTo 1 (score_pitch a.pitch_deviations * 0.7 +
      score_timing a.timing_offsets * 0.15 + score_dynamics a.energy_ratios * 0.15) := rfl
  refine ⟨?_, ?_, ?_, ?_⟩
  · rw [e1]; exact roundTo_range_0_100 1 hp.1 hp.2
  · rw [e2]; exact roundTo_range_0_100 1 ht.1 ht.2
  · rw [e3]; exact roundTo_range_0_100 1 hd.1 hd.2
  · rw [e4]
    exact roundTo_range_0_100 1 (by nlinarith [hp.1, ht.1, hd.1]) (by nlinarith [hp.2, ht.2, hd.2])

theorem greedySelect_inv (ws : List PAWindow) (sel : List ProblemArea)
    (hlen : sel.length ≤ 3) (hpw : sel.Pairwise paSeparated) :
    (greedySelect ws sel).length ≤ 3 ∧ (greedySelect ws sel).Pairwise paSeparated := by
  induction ws generalizing sel with
  | nil => exact ⟨hlen, hpw⟩
  | cons w ws ih =>
      rw [greedySelect]
      split_ifs with h1 h2
      · exact ⟨hlen, hpw⟩
      · exact ih sel hlen hpw
      · apply ih
        · have : sel.length < 3 := lt_of_not_le h1
          simp only [List.length_append, List.length_singleton]
          omega
        · rw [List.pairwise_append]
          refine ⟨hpw, List.pairwise_singleton _ _, ?_⟩
          intro a ha b hb
          rw [List.mem_singleton] at hb
          subst hb
          push_neg at h2
          have hno := h2 a ha
          rw [paOverlap, not_and_or, not_lt, not_lt] at hno
          rcases hno with h | h
          · exact Or.inl h
          · exact Or.inr h

theorem greedySelect_sublist (ws : List PAWindow) (sel : List ProblemArea) :
    ∃ l, greedySelect ws sel = sel ++ l ∧ l.Sublist (ws.map (·.area)) := by
  induction ws generalizing sel with
  | nil => exact ⟨[], by rw [greedySelect]; simp, by simp⟩
  | cons w ws ih =>
      rw [greedySelect]
      split_ifs with h1 h2
      · exact ⟨[], by simp, List.nil_sublist _⟩
      · obtain ⟨l, hl, hs⟩ := ih sel
        exact ⟨l, hl, hs.cons _⟩
      · obtain ⟨l, hl, hs⟩ := ih (sel ++ [w.area])
        refine ⟨w.area :: l, ?_, hs.cons₂ _⟩
        rw [hl, List.append_assoc]
        rfl

theorem identify_problem_areas_eq (a : Alignment) (u r : Features) :
    identify_problem_areas a u r =
      if u.pitch_times = [] then [] else greedySelect (paSortedWindows a u r) [] := rfl

/-- C7: the problem finder returns at most three problem areas, selected
greedily from the badness-descending ordering of the candidate windows,
and every two returned areas do not overlap in user time (they intersect
at most at an endpoint). -/
theorem C7_problem_areas_nonoverlapping (a : Alignment) (u r : Features) :
    (identify_problem_areas a u r).length ≤ 3 ∧
    (identify_problem_areas a u r).Pairwise paSeparated ∧
    ∃ ws : List PAWindow, List.Sorted (fun x y => y.badness ≤ x.badness) ws ∧
      (identify_problem_areas a u r).Sublist (ws.map (·.area)) := by
  rw [identify_problem_areas_eq]
  split_ifs with h
  · exact ⟨by simp, List.Pairwise.nil, ⟨[], List.sorted_nil, by simp⟩⟩
  · haveI ht : IsTotal PAWindow (fun x y => y.badness ≤ x.badness) :=
      ⟨fun a b => le_total b.badness a.badness⟩
    haveI htr : IsTrans PAWindow (fun x y => y.badness ≤ x.badness) :=
      ⟨fun _ _ _ h1 h2 => le_trans h2 h1⟩
    have inv := greedySelect_inv (paSortedWindows a u r) [] (by simp) List.Pairwise.nil
    obtain ⟨l, hl, hs⟩ := greedySelect_sublist (paSortedWindows a u r) []
    refine ⟨inv.1, inv.2, paSortedWindows a u r, List.sorted_insertionSort _ _, ?_⟩
    rw [hl]
    simpa using hs

/-! ## C8: extracted-note durations -/

theorem roundTo3_sub {s t : ℝ} (h : 0.12 ≤ t - s) :
    0.12 ≤ roundTo 3 t - roundTo 3 s := by
  have h1 : rEven (s * 10 ^ 3) + 2 * 60 ≤ rEven (t * 10 ^ 3) := by
    rw [← rEven_add_two_int (s * 10 ^ 3) 60]
    apply rEven_mono
    push_cast
    nlinarith
  have h2 : ((rEven (s * 10 ^ 3) : ℝ)) + 120 ≤ (rEven (t * 10 ^ 3) : ℝ) := by
    exact_mod_cast h1
  rw [roundTo, roundTo, show (0.12 : ℝ) = 120 / 10 ^ 3 by norm_num,
    le_sub_iff_add_le, div_add_div_same, div_le_div_iff_of_pos_right (by positivity)]
  linarith

theorem emitNote_durOK {s t : ℝ} (freqs : List ℝ) (h : 0.12 ≤ t - s) :
    noteDurOK (emitNote s t freqs) := by
  unfold noteDurOK emitNote
  exact roundTo3_sub h

theorem extractStep_inv (oF dF : List ℕ) (st : ExtractState) (e : ℕ × (Option ℝ × ℝ))
    (h : st.notes.Forall noteDurOK) : (extractStep oF dF st e).notes.Forall noteDurOK := by
  rw [List.forall_iff_forall_mem] at h ⊢
  unfold extractStep
  rcases hv : voicedOf e.2.1 with _ | v <;> rcases hcs : st.current_start with _ | s <;>
    simp only [hv, hcs]
  all_goals try split_ifs
  all_goals
    intro n hn
    first
    | exact h n hn
    | (rw [List.mem_append] at hn
       rcases hn with hn | hn
       · exact h n hn
       · rw [List.mem_singleton] at hn
         subst hn
         apply emitNote_durOK
         assumption)

theorem extractFold_inv (oF dF : List ℕ) (frames : List (ℕ × (Option ℝ × ℝ)))
    (st : ExtractState) (h : st.notes.Forall noteDurOK) :
    (frames.foldl (extractStep oF dF) st).notes.Forall noteDurOK := by
  induction frames generalizing st with
  | nil => exact h
  | cons f fs ih => exact ih _ (extractStep_inv oF dF st f h)

theorem extractFinal_inv (pt : List ℝ) (st : ExtractState) (h : st.notes.Forall noteDurOK) :
    (match st.current_start with
     | some s =>
         if st.current_freqs ≠ [] then
           if 0.12 ≤ pt.getLast?.getD s - s then
             st.notes ++ [emitNote s (pt.getLast?.getD s) st.current_freqs]
           else st.notes
         else st.notes
     | none => st.notes).Forall noteDurOK := by
  rw [List.forall_iff_forall_mem] at h ⊢
  rcases hcs : st.current_start with _ | s <;> simp only [hcs]
  · exact h
  · split_ifs with h1 h2
    · intro n hn
      rw [List.mem_append] at hn
      rcases hn with hn | hn
      · exact h n hn
      · rw [List.mem_singleton] at hn
        subst hn
        exact emitNote_durOK _ h2
    · exact h
    · exact h

/-- C8: every note emitted by the note extractor, for any input pitch
contour, has reported duration `endTime - startTime` of at least 0.12
seconds. -/
theorem C8_note_min_duration (pv : List (Option ℝ)) (pt onsets rv rt : List ℝ)
    (maxT : Option ℝ) :
    (extract_notes pv pt onsets rv rt maxT).Forall
      (fun n => 0.12 ≤ n.endTime - n.startTime) := by
  exact extractFinal_inv pt
    ((framesFor pv pt maxT).foldl
      (extractStep (onsetFrames onsets pt) (energyDipFrames rv rt pt)) ⟨[], [], none⟩)
    (extractFold_inv _ _ _ _ (by simp [List.Forall]))

/-! ## C3: octave-folded cent range -/

theorem pymod_nonneg (a : ℝ) {b : ℝ} (hb : 0 < b) : 0 ≤ pymod a b := by
  rw [pymod, sub_nonneg, mul_comm, ← le_div_iff₀ hb]
  exact Int.floor_le _

theorem pymod_lt (a : ℝ) {b : ℝ} (hb : 0 < b) : pymod a b < b := by
  rw [pymod, sub_lt_iff_lt_add]
  have h := Int.lt_floor_add_one (a / b)
  calc a = a / b * b := by field_simp
    _ < ((⌊a / b⌋ : ℝ) + 1) * b := by
        apply mul_lt_mul_of_pos_right h hb
    _ = b + b * ⌊a / b⌋ := by ring

theorem roundTo2_of_Ico {x : ℝ} (h0 : -600 ≤ x) (h1 : x < 600) :
    -600 ≤ roundTo 2 x ∧ roundTo 2 x ≤ 600 := by
  have e0 : roundTo 2 (-600 : ℝ) = -600 := roundTo_exact (-60000) (by norm_num)
  have e1 : roundTo 2 (600 : ℝ) = 600 := roundTo_exact 60000 (by norm_num)
  constructor
  · calc (-600 : ℝ) = roundTo 2 (-600) := e0.symm
      _ ≤ roundTo 2 x := roundTo_mono 2 h0
  · calc roundTo 2 x ≤ roundTo 2 600 := roundTo_mono 2 (le_of_lt h1)
      _ = 600 := e1

theorem pitchDevPair_mem {up rp : List (Option ℝ)} {q : ℕ × ℕ} {x : ℝ}
    (h : pitchDevPair up rp q = some x) : -600 ≤ x ∧ x ≤ 600 := by
  unfold pitchDevPair at h
  rcases hu : up.getD q.1 none with _ | uf <;> rw [hu] at h
  · simp at h
  · rcases hr : rp.getD q.2 none with _ | rf <;> rw [hr] at h
    · simp at h
    · dsimp only at h
      by_cases hc : 0 < uf ∧ 0 < rf
      · rw [if_pos hc, Option.some.injEq] at h
        subst h
        have hm0 := pymod_nonneg (1200 * Real.logb 2 (uf / rf) + 600)
          (by norm_num : (0:ℝ) < 1200)
        have hm1 := pymod_lt (1200 * Real.logb 2 (uf / rf) + 600)
          (by norm_num : (0:ℝ) < 1200)
        exact roundTo2_of_Ico (by linarith) (by linarith)
      · rw [if_neg hc] at h
        simp at h

theorem align_rest_pitch_deviations (u r : Features) (p : List (ℕ × ℕ)) (d : ℝ) :
    (align_rest u r p d).pitch_deviations =
      (alignKeep u r p).map (fun i => (alignDevs u r p).getD i none) := rfl

theorem pitchDevs_mem {up rp : List (Option ℝ)} {p : List (ℕ × ℕ)} {o : Option ℝ}
    (ho : o ∈ pitchDevs up rp p) {x : ℝ} (hx : o = some x) : -600 ≤ x ∧ x ≤ 600 := by
  obtain ⟨q, _, hq⟩ := List.mem_map.mp ho
  exact pitchDevPair_mem (hq.trans hx)

/-- C3, amended: every emitted pitch deviation of the alignment (a
rounded octave-folded cent value) lies in the closed interval
[-600, 600]; the left end is attainable (see the counterexample), the
claimed half-open interval (-600, 600] is not.  Quantified over every
aligner output. -/
theorem C3A_folded_cents_range (u r : Features) (p : List (ℕ × ℕ)) (d : ℝ) :
    (align_rest u r p d).pitch_deviations.Forall
      (fun o => ∀ x : ℝ, o = some x → -600 ≤ x ∧ x ≤ 600) := by
  rw [List.forall_iff_forall_mem]
  intro o ho x hx
  rw [align_rest_pitch_deviations] at ho
  obtain ⟨i, _, hi⟩ := List.mem_map.mp ho
  subst hi
  rcases lt_or_le i (alignDevs u r p).length with hlen | hlen
  · rw [List.getD_eq_getElem _ none hlen] at hx
    have hmem := List.getElem_mem hlen
    unfold alignDevs at hmem
    exact pitchDevs_mem hmem hx
  · rw [List.getD_eq_default _ _ hlen] at hx
    exact absurd hx (by simp)

/-! ## C3 counterexample: a deviation of exactly -600 is emitted

The user sings 565.6856 Hz against a 400 Hz reference: the frequency
ratio 707107/500000 lies barely above √2, so the folded cents value is
barely above -600 and `round(·, 2)` lands on -600.00 exactly. -/

theorem ratio_sq_C3 : ((707107 : ℝ) / 500000) ^ 2 = 2 * (1 + 309449 / 500000000000) := by
  norm_num

theorem bern_gen (α : ℝ) (n : ℕ) (hα : 0 < α) (hn : (n : ℝ) * α < 1 / 2) :
    (1 + α) ^ n < 2 := by
  have h1α : (0 : ℝ) < 1 + α := by linarith
  have hβ0 : 0 ≤ α / (1 + α) := div_nonneg (le_of_lt hα) (le_of_lt h1α)
  have hβα : α / (1 + α) ≤ α := div_le_self (le_of_lt hα) (by linarith)
  have hn0 : (0 : ℝ) ≤ (n : ℝ) := Nat.cast_nonneg n
  have hprod : (1 + α) * (1 - α / (1 + α)) = 1 := by
    field_simp
  have hβ2 : -(2 : ℝ) ≤ -(α / (1 + α)) := by
    have hlt : α / (1 + α) < 1 := by
      rw [div_lt_one h1α]
      linarith
    linarith
  have hb := one_add_mul_le_pow hβ2 n
  have hnβ : (n : ℝ) * (α / (1 + α)) ≤ (n : ℝ) * α := mul_le_mul_of_nonneg_left hβα hn0
  have h2 : (1 : ℝ) / 2 < 1 - (n : ℝ) * (α / (1 + α)) := by linarith
  have hb2 : (1 : ℝ) / 2 < (1 - α / (1 + α)) ^ n := by
    have hb' := hb
    rw [mul_neg, ← sub_eq_add_neg] at hb'
    rw [show (1 : ℝ) + -(α / (1 + α)) = 1 - α / (1 + α) by ring] at hb'
    linarith
  have hpow : ((1 + α) ^ n) * ((1 - α / (1 + α)) ^ n) = 1 := by
    rw [← mul_pow, hprod, one_pow]
  nlinarith [hpow, hb2, pow_nonneg (le_of_lt h1α) n]

theorem bern_C3 : ((1 : ℝ) + 309449 / 500000000000) ^ 120000 < 2 :=
  bern_gen (309449 / 500000000000) 120000 (by norm_num) (by norm_num)

theorem pow_lt_C3 : ((707107 : ℝ) / 500000) ^ 240000 < 2 ^ 120001 := by
  have h1 : ((707107 : ℝ) / 500000) ^ 240000 = (((707107 : ℝ) / 500000) ^ 2) ^ 120000 := by
    rw [← pow_mul]
  rw [h1, ratio_sq_C3, mul_pow]
  have h2 : ((2 : ℝ) ^ 120000) * ((1 + 309449 / 500000000000) ^ 120000) <
      (2 ^ 120000) * 2 := by
    exact mul_lt_mul_of_pos_left bern_C3 (by positivity)
  calc ((2 : ℝ) ^ 120000) * ((1 + 309449 / 500000000000) ^ 120000) < (2 ^ 120000) * 2 := h2
    _ = 2 ^ 120001 := by rw [← pow_succ]

theorem logb_lo_C3 : (1 : ℝ) / 2 ≤ Real.logb 2 (707107 / 500000) := by
  rw [Real.le_logb_iff_rpow_le (by norm_num) (by norm_num)]
  have h1 : ((2 : ℝ) ^ ((1 : ℝ) / 2)) ^ (2 : ℕ) ≤ ((707107 : ℝ) / 500000) ^ (2 : ℕ) := by
    have e1 : ((2 : ℝ) ^ ((1 : ℝ) / 2)) ^ (2 : ℕ) = 2 := by
      rw [← Real.rpow_natCast ((2 : ℝ) ^ ((1 : ℝ) / 2)) 2, ← Real.rpow_mul (by norm_num)]
      norm_num
    rw [e1]
    norm_num
  exact le_of_pow_le_pow_left₀ (by norm_num) (by norm_num) h1

theorem logb_hi_C3 : Real.logb 2 (707107 / 500000) < 120001 / 240000 := by
  rw [Real.logb_lt_iff_lt_rpow (by norm_num) (by norm_num)]
  have e1 : ((2 : ℝ) ^ ((120001 : ℝ) / 240000)) ^ (240000 : ℕ) = 2 ^ (120001 : ℕ) := by
    rw [← Real.rpow_natCast ((2 : ℝ) ^ ((120001 : ℝ) / 240000)) 240000,
      ← Real.rpow_mul (by norm_num)]
    norm_num
  apply lt_of_pow_lt_pow_left₀ 240000 (by positivity)
  rw [e1]
  exact pow_lt_C3

/-- The folded, rounded deviation of the C3 pair is exactly -600. -/
theorem devC3 :
    pitchDevPair [some ((5656856 : ℝ) / 10000)] [some (400 : ℝ)] (0, 0) = some (-600) := by
  have hq : (5656856 : ℝ) / 10000 / 400 = 707107 / 500000 := by norm_num
  have hc0 : (600 : ℝ) ≤ 1200 * Real.logb 2 (707107 / 500000) := by
    have := logb_lo_C3
    linarith
  have hc1 : 1200 * Real.logb 2 (707107 / 500000) < 600 + 1 / 200 := by
    have := logb_hi_C3
    nlinarith
  have hfl : ⌊(1200 * Real.logb 2 (707107 / 500000) + 600) / 1200⌋ = 1 := by
    rw [Int.floor_eq_iff]
    constructor
    · push_cast
      rw [le_div_iff₀ (by norm_num : (0:ℝ) < 1200)]
      linarith
    · push_cast
      rw [div_lt_iff₀ (by norm_num : (0:ℝ) < 1200)]
      linarith
  have hre : rEven ((pymod (1200 * Real.logb 2 (707107 / 500000) + 600) 1200 - 600)
      * 10 ^ 2) = -60000 := by
    apply rEven_eq_of_abs_lt
    rw [pymod, hfl]
    rw [abs_lt]
    constructor <;> [push_cast; push_cast] <;> nlinarith
  show (if 0 < (5656856 : ℝ) / 10000 ∧ 0 < (400 : ℝ) then
      some (roundTo 2 (pymod (1200 * Real.logb 2 ((5656856 : ℝ) / 10000 / 400) + 600) 1200 - 600))
    else none) = some (-600)
  rw [if_pos (by constructor <;> norm_num)]
  rw [hq, Option.some.injEq, roundTo, hre]
  norm_num

/-! ## Warp-path uniqueness on tiny grids -/

theorem dtwStep_le {a b : ℕ × ℕ} (h : dtwStep a b) : a.1 ≤ b.1 ∧ a.2 ≤ b.2 := by
  rcases h with ⟨h1, h2⟩ | ⟨h1, h2⟩ | ⟨h1, h2⟩ <;> omega

theorem chain_dtw_le {l : List (ℕ × ℕ)} (h : List.Chain' dtwStep l) :
    ∀ {a z : ℕ × ℕ}, l.head? = some a → l.getLast? = some z → a.1 ≤ z.1 ∧ a.2 ≤ z.2 := by
  induction l with
  | nil => intro a z ha _; simp at ha
  | cons x t ih =>
      intro a z ha hz
      rw [List.head?_cons, Option.some.injEq] at ha
      subst ha
      rcases t with _ | ⟨y, t'⟩
      · rw [List.getLast?_singleton, Option.some.injEq] at hz
        subst hz
        exact ⟨le_refl _, le_refl _⟩
      · rw [List.chain'_cons] at h
        rw [List.getLast?_cons_cons] at hz
        have hyz := ih h.2 (by rw [List.head?_cons]) hz
        have hxy := dtwStep_le h.1
        exact ⟨le_trans hxy.1 hyz.1, le_trans hxy.2 hyz.2⟩

theorem warp_unique_11 {q : List (ℕ × ℕ)} (h : ValidWarpPath 1 1 q) : q = [(0, 0)] := by
  obtain ⟨hh, hl, hc⟩ := h
  rcases q with _ | ⟨x, t⟩
  · simp at hh
  · rw [List.head?_cons, Option.some.injEq] at hh
    subst hh
    rcases t with _ | ⟨y, t'⟩
    · rfl
    · exfalso
      rw [List.chain'_cons] at hc
      rw [List.getLast?_cons_cons] at hl
      have hle := chain_dtw_le hc.2 (by rw [List.head?_cons]) hl
      have hst := hc.1
      rcases hst with ⟨h1, h2⟩ | ⟨h1, h2⟩ | ⟨h1, h2⟩ <;> simp at hle h1 h2 <;> omega

theorem rangeBy_nonpos {stop : ℤ} (step : ℕ) (h : stop ≤ 0) : rangeBy stop step = [] := by
  unfold rangeBy
  rw [if_pos h]

theorem detect_eq_zero_of_stop (up : List (Option ℝ)) (ut : List ℝ) (rp : List (Option ℝ))
    (rt : List ℝ)
    (h : min (up.length : ℤ) (intTrunc (min 5.0 (ut.getLast?.getD 0) / 0.02)) ≤ 0) :
    detect_singing_onset up ut rp rt = 0 := by
  unfold detect_singing_onset
  split_ifs with h1
  · rfl
  · simp only [rangeBy_nonpos _ h, List.find?_nil, ite_self]

theorem shiftPath_zero (p : List (ℕ × ℕ)) : shiftPath 0 p = p := by
  unfold shiftPath
  rw [if_neg (by norm_num)]

theorem onset_uC3 : singing_onset uC3 rC3 = 0 := by
  unfold singing_onset
  apply detect_eq_zero_of_stop
  show min ((1 : ℕ) : ℤ) (intTrunc (min 5.0 (([(0 : ℝ)].getLast?.getD 0)) / 0.02)) ≤ 0
  rw [List.getLast?_singleton, Option.getD_some]
  rw [show min (5.0 : ℝ) 0 = 0 by norm_num]
  rw [show (0 : ℝ) / 0.02 = 0 by norm_num]
  rw [show intTrunc 0 = 0 by unfold intTrunc; rw [if_pos (le_refl _)]; exact Int.floor_zero]
  omega

theorem offset_uC3 : user_frame_offset uC3 rC3 = 0 := by
  unfold user_frame_offset
  rw [if_neg]
  intro hc
  rw [onset_uC3] at hc
  norm_num at hc

theorem cut_idx_C3 : cut_idx uC3 rC3 = none := by
  unfold cut_idx
  rw [if_neg]
  intro hc
  obtain ⟨h1, _⟩ := hc
  rw [max_ref_dur] at h1
  norm_num [uC3, rC3] at h1

theorem refPitchT_C3 : refPitchT uC3 rC3 = [some 400] := by
  unfold refPitchT
  rw [cut_idx_C3]
  rfl

theorem devsC3 :
    pitchDevs uC3.pitch_values (refPitchT uC3 rC3) [(0, 0)] = [some (-600)] := by
  rw [refPitchT_C3]
  show [pitchDevPair [some ((5656856 : ℝ) / 10000)] [some (400 : ℝ)] (0, 0)] = [some (-600)]
  rw [devC3]

theorem alignC3_devs :
    ∀ d : ℝ, (align_rest uC3 rC3 [(0, 0)] d).pitch_deviations = [some (-600)] := by
  intro d
  have hp : alignPath uC3 rC3 [(0, 0)] = [(0, 0)] := by
    rw [alignPath, offset_uC3, shiftPath_zero]
  have hdv : alignDevs uC3 rC3 [(0, 0)] = [some (-600)] := by
    rw [alignDevs, hp, devsC3]
  rw [align_rest_pitch_deviations, alignKeep, hp, hdv]
  rfl

theorem userSeq_C3_len : (userSeq uC3 rC3).length = 1 := by
  unfold userSeq build_dtw_features userPitchDtw userTimesDtw
  rw [offset_uC3]
  simp [uC3]

theorem refSeq_C3_len : (refSeq uC3 rC3).length = 1 := by
  unfold refSeq build_dtw_features
  rw [refPitchT_C3]
  unfold refTimesT
  rw [cut_idx_C3]
  simp [rC3]

theorem dtwspec_C3 (d : ℝ) (hd : d = pathCost (userSeq uC3 rC3) (refSeq uC3 rC3) [(0, 0)]) :
    DTWSpec (userSeq uC3 rC3) (refSeq uC3 rC3) [(0, 0)] d := by
  unfold DTWSpec
  have hu : userSeq uC3 rC3 ≠ [] := by
    intro hc
    have := userSeq_C3_len
    rw [hc] at this
    simp at this
  have hr : refSeq uC3 rC3 ≠ [] := by
    intro hc
    have := refSeq_C3_len
    rw [hc] at this
    simp at this
  rw [if_neg (by simp [hu, hr])]
  refine ⟨?_, hd, ?_⟩
  · rw [userSeq_C3_len, refSeq_C3_len]
    exact ⟨rfl, rfl, List.chain'_singleton _⟩
  · intro q hq
    rw [userSeq_C3_len, refSeq_C3_len] at hq
    rw [warp_unique_11 hq]

/-- C3 is false as stated: at this concrete input the aligner's only
valid path is [(0, 0)], both frames are voiced, and the emitted pitch
deviation is exactly -600, which is not in the half-open interval
(-600, 600]. -/
theorem C3_counterexample :
    DTWSpec (userSeq uC3 rC3) (refSeq uC3 rC3) [(0, 0)]
      (pathCost (userSeq uC3 rC3) (refSeq uC3 rC3) [(0, 0)]) ∧
    (align_rest uC3 rC3 [(0, 0)]
      (pathCost (userSeq uC3 rC3) (refSeq uC3 rC3) [(0, 0)])).pitch_deviations
      = [some (-600)] ∧
    (-600 : ℝ) ∉ Set.Ioc (-600 : ℝ) 600 := by
  refine ⟨dtwspec_C3 _ rfl, alignC3_devs _, ?_⟩
  intro hc
  exact lt_irrefl _ hc.1

/-! ## C5: the normalized timing offsets have median 0 -/

theorem sortR_map_mono (f : ℝ → ℝ) (hf : Monotone f) (l : List ℝ) :
    sortR (l.map f) = (sortR l).map f := by
  haveI : IsAntisymm ℝ (· ≤ ·) := ⟨fun a b h1 h2 => le_antisymm h1 h2⟩
  exact List.eq_of_perm_of_sorted
    ((List.perm_insertionSort _ (l.map f)).trans ((List.perm_insertionSort _ l).symm.map f))
    (List.sorted_insertionSort _ _)
    (List.Pairwise.map f (fun a b hab => hf hab) (List.sorted_insertionSort _ l))

theorem getD_map_lt (f : ℝ → ℝ) (s : List ℝ) (i : ℕ) (h : i < s.length) (d1 d2 : ℝ) :
    (s.map f).getD i d1 = f (s.getD i d2) := by
  rw [List.getD_eq_getElem _ _ (by rw [List.length_map]; exact h),
    List.getD_eq_getElem _ _ h, List.getElem_map]

theorem median_def_odd {l : List ℝ} (hne : l ≠ []) (hpar : l.length % 2 = 1) :
    median l = (sortR l).getD (l.length / 2) 0 := by
  unfold median
  rw [if_neg hne, if_pos hpar]

theorem median_def_even {l : List ℝ} (hne : l ≠ []) (hpar : ¬ l.length % 2 = 1) :
    median l = ((sortR l).getD (l.length / 2 - 1) 0 + (sortR l).getD (l.length / 2) 0) / 2 := by
  unfold median
  rw [if_neg hne, if_neg hpar]

theorem median_map_round_sub (l : List ℝ) (hne : l ≠ []) :
    median (l.map (fun v => roundTo 4 (v - median l))) = 0 := by
  have hf : Monotone (fun v : ℝ => roundTo 4 (v - median l)) := by
    intro a b hab
    exact roundTo_mono 4 (by linarith)
  have hcomm := sortR_map_mono _ hf l
  have hlen : (l.map (fun v => roundTo 4 (v - median l))).length = l.length :=
    List.length_map _ _
  have hl0 : l.length ≠ 0 := fun hc => hne (List.eq_nil_of_length_eq_zero hc)
  have hslen : (sortR l).length = l.length := List.length_insertionSort _ l
  have hmne : l.map (fun v => roundTo 4 (v - median l)) ≠ [] := by simpa using hne
  by_cases hpar : l.length % 2 = 1
  · rw [median_def_odd hmne (by rw [hlen]; exact hpar), hlen, hcomm]
    have hlt : l.length / 2 < (sortR l).length := by omega
    rw [getD_map_lt _ _ _ hlt _ 0]
    rw [← median_def_odd hne hpar, sub_self, roundTo_zero]
  · rw [median_def_even hmne (by rw [hlen]; exact hpar), hlen, hcomm]
    have h2 : 2 ≤ l.length := by omega
    have hlt1 : l.length / 2 - 1 < (sortR l).length := by omega
    have hlt2 : l.length / 2 < (sortR l).length := by omega
    rw [getD_map_lt _ _ _ hlt1 _ 0, getD_map_lt _ _ _ hlt2 _ 0]
    have hmed := median_def_even hne hpar
    have hskew : (sortR l).getD (l.length / 2 - 1) 0 - median l =
        -((sortR l).getD (l.length / 2) 0 - median l) := by
      rw [hmed]
      ring
    rw [hskew, roundTo_neg]
    ring

theorem align_rest_timing_offsets (u r : Features) (p : List (ℕ × ℕ)) (d : ℝ) :
    (align_rest u r p d).timing_offsets =
      (alignRawsD u r p).map (fun v => roundTo 4 (v - median (alignRawsD u r p))) := rfl

theorem align_rest_path (u r : Features) (p : List (ℕ × ℕ)) (d : ℝ) :
    (align_rest u r p d).path = alignPathD u r p := rfl

/-- C5: after subtracting the median baseline, the median of the stored
(rounded) timing offsets is within 1e-9 of 0 for every non-empty
deduplicated path; in fact it is exactly 0 by the symmetry of
round-half-to-even. -/
theorem C5_timing_median (u r : Features) (p : List (ℕ × ℕ)) (d : ℝ)
    (hne : (align_rest u r p d).path ≠ []) :
    |median ((align_rest u r p d).timing_offsets)| ≤ 1e-9 := by
  rw [align_rest_timing_offsets]
  have hkne : alignKeep u r p ≠ [] := by
    intro hc
    apply hne
    rw [align_rest_path, alignPathD, hc]
    rfl
  have hrne : alignRawsD u r p ≠ [] := by
    intro hc
    apply hkne
    unfold alignRawsD at hc
    exact List.map_eq_nil.mp hc
  rw [median_map_round_sub _ hrne]
  norm_num

/-- C5 witness: a concrete one-pair run, where the normalized offsets
are [0.0] with median 0. -/
theorem C5_witness :
    (align_rest uC3 rC3 [(0, 0)] 0).path ≠ [] ∧
    |median ((align_rest uC3 rC3 [(0, 0)] 0).timing_offsets)| ≤ 1e-9 := by
  have hp : alignPath uC3 rC3 [(0, 0)] = [(0, 0)] := by
    rw [alignPath, offset_uC3, shiftPath_zero]
  have hne : (align_rest uC3 rC3 [(0, 0)] 0).path ≠ [] := by
    rw [align_rest_path, alignPathD, alignKeep, hp]
    intro hc
    rw [alignDevs, hp, devsC3] at hc
    simp [keepIdxs, dedupAssoc, dedupStep] at hc
  exact ⟨hne, C5_timing_median uC3 rC3 [(0, 0)] 0 hne⟩

theorem dedupStep_inv (devs : List (Option ℝ)) (done : List (ℕ × (ℕ × ℕ)))
    (acc : List (ℕ × ℕ)) (en : ℕ × (ℕ × ℕ)) (h : DedupInv devs done acc) :
    DedupInv devs (done ++ [en]) (dedupStep devs acc en) := by
  obtain ⟨hKD, hMin, hCov, hND⟩ := h
  have memD : ∀ x ∈ done, x ∈ done ++ [en] := fun x hx => List.mem_append_left _ hx
  have memE : en ∈ done ++ [en] := List.mem_append_right _ (List.mem_singleton_self _)
  unfold dedupStep
  rcases hf : acc.find? (fun x => x.1 == en.2.1) with _ | x0 <;> simp only [hf]
  · have hnotin : en.2.1 ∉ acc.map Prod.fst := by
      intro hc
      obtain ⟨e, he, hee⟩ := List.mem_map.mp hc
      have hfn := List.find?_eq_none.mp hf e he
      rw [hee] at hfn
      simp at hfn
    refine ⟨?_, ?_, ?_, ?_⟩
    · intro e he
      rcases List.mem_append.mp he with he | he
      · obtain ⟨en', hen', h1, h2⟩ := hKD e he
        exact ⟨en', memD en' hen', h1, h2⟩
      · rw [List.mem_singleton] at he
        subst he
        exact ⟨en, memE, rfl, rfl⟩
    · intro e he en' hen' hkey
      rcases List.mem_append.mp he with he1 | he1
      · rcases List.mem_append.mp hen' with he2 | he2
        · exact hMin e he1 en' he2 hkey
        · rw [List.mem_singleton] at he2
          exfalso
          apply hnotin
          rw [← he2] at hnotin ⊢
          rw [hkey]
          exact List.mem_map_of_mem Prod.fst he1
      · rw [List.mem_singleton] at he1
        rcases List.mem_append.mp hen' with he2 | he2
        · exfalso
          apply hnotin
          have hc := hCov en' he2
          rw [hkey, he1] at hc
          simpa using hc
        · rw [List.mem_singleton] at he2
          rw [he1, he2]
    · intro en' hen'
      rcases List.mem_append.mp hen' with hen' | hen'
      · have := hCov en' hen'
        rw [List.map_append]
        exact List.mem_append_left _ this
      · rw [List.mem_singleton] at hen'
        subst hen'
        rw [List.map_append]
        exact List.mem_append_right _ (by simp)
    · rw [List.map_append]
      rw [List.nodup_append]
      exact ⟨hND, List.nodup_singleton _, by simpa using fun hc => hnotin hc⟩
  · have hx0mem : x0 ∈ acc := List.mem_of_find?_eq_some hf
    have hx0key : x0.1 = en.2.1 := by
      have := List.find?_some hf
      simpa using this
    have hinj := List.inj_on_of_nodup_map hND
    split_ifs with hlt
    · refine ⟨?_, ?_, ?_, ?_⟩
      · intro e he
        obtain ⟨x, hx, hxe⟩ := List.mem_map.mp he
        by_cases hb : x.1 = en.2.1
        · rw [if_pos (by simpa using hb)] at hxe
          subst hxe
          exact ⟨en, memE, rfl, rfl⟩
        · rw [if_neg (by simpa using hb)] at hxe
          subst hxe
          obtain ⟨en', hen', h1, h2⟩ := hKD x hx
          exact ⟨en', memD en' hen', h1, h2⟩
      · intro e he en' hen' hkey
        obtain ⟨x, hx, hxe⟩ := List.mem_map.mp he
        by_cases hb : x.1 = en.2.1
        · rw [if_pos (by simpa using hb)] at hxe
          subst hxe
          rcases List.mem_append.mp hen' with hen' | hen'
          · have hx0min := hMin x0 hx0mem en' hen' (by rw [hx0key]; exact hkey)
            exact le_trans (le_of_lt hlt) hx0min
          · rw [List.mem_singleton] at hen'
            subst hen'
            exact le_refl _
        · rw [if_neg (by simpa using hb)] at hxe
          subst hxe
          rcases List.mem_append.mp hen' with hen' | hen'
          · exact hMin x hx en' hen' hkey
          · rw [List.mem_singleton] at hen'
            subst hen'
            exact absurd hkey (fun hc => hb hc.symm)
      · have hfst : (acc.map (fun x => if x.1 == en.2.1 then (en.2.1, en.1) else x)).map
            Prod.fst = acc.map Prod.fst := by
          rw [List.map_map]
          apply List.map_congr_left
          intro x hx
          by_cases hb : x.1 = en.2.1
          · rw [Function.comp_apply, if_pos (by simpa using hb)]
            exact hb.symm
          · rw [Function.comp_apply, if_neg (by simpa using hb)]
        intro en' hen'
        rw [hfst]
        rcases List.mem_append.mp hen' with hen' | hen'
        · exact hCov en' hen'
        · rw [List.mem_singleton] at hen'
          subst hen'
          rw [← hx0key]
          exact List.mem_map_of_mem Prod.fst hx0mem
      · have hfst : (acc.map (fun x => if x.1 == en.2.1 then (en.2.1, en.1) else x)).map
            Prod.fst = acc.map Prod.fst := by
          rw [List.map_map]
          apply List.map_congr_left
          intro x hx
          by_cases hb : x.1 = en.2.1
          · rw [Function.comp_apply, if_pos (by simpa using hb)]
            exact hb.symm
          · rw [Function.comp_apply, if_neg (by simpa using hb)]
        rw [hfst]
        exact hND
    · refine ⟨?_, ?_, ?_, ?_⟩
      · intro e he
        obtain ⟨en', hen', h1, h2⟩ := hKD e he
        exact ⟨en', memD en' hen', h1, h2⟩
      · intro e he en' hen' hkey
        rcases List.mem_append.mp hen' with hen' | hen'
        · exact hMin e he en' hen' hkey
        · rw [List.mem_singleton] at hen'
          subst hen'
          have hex0 : e = x0 := hinj he hx0mem (by rw [hx0key]; exact hkey.symm)
          subst hex0
          exact not_lt.mp hlt
      · intro en' hen'
        rcases List.mem_append.mp hen' with hen' | hen'
        · exact hCov en' hen'
        · rw [List.mem_singleton] at hen'
          subst hen'
          rw [← hx0key]
          exact List.mem_map_of_mem Prod.fst hx0mem
      · exact hND

theorem dedupFold_inv (devs : List (Option ℝ)) (l done : List (ℕ × (ℕ × ℕ)))
    (acc : List (ℕ × ℕ)) (h : DedupInv devs done acc) :
    DedupInv devs (done ++ l) (l.foldl (dedupStep devs) acc) := by
  induction l generalizing done acc with
  | nil => simpa using h
  | cons en l ih =>
      have hstep := dedupStep_inv devs done acc en h
      have := ih (done ++ [en]) (dedupStep devs acc en) hstep
      rw [List.append_assoc] at this
      simpa using this

theorem dedupAssoc_inv (P : List (ℕ × ℕ)) (devs : List (Option ℝ)) :
    DedupInv devs P.enum (dedupAssoc P devs) := by
  have h0 : DedupInv devs [] [] := by
    refine ⟨?_, ?_, ?_, ?_⟩ <;> simp [DedupInv]
  have := dedupFold_inv devs P.enum [] [] h0
  simpa [dedupAssoc] using this

theorem enum_honest (P : List (ℕ × ℕ)) :
    ∀ en ∈ P.enum, en.1 < P.length ∧ P.getD en.1 (0, 0) = en.2 := by
  intro en hen
  have h := List.mem_enum_iff_get?.mp hen
  have hlt : en.1 < P.length := by
    by_contra hc
    rw [List.get?_eq_none.mpr (le_of_not_lt hc)] at h
    exact absurd h (by simp)
  refine ⟨hlt, ?_⟩
  rw [List.getD_eq_getElem _ _ hlt]
  rw [List.get?_eq_getElem?, List.getElem?_eq_getElem hlt, Option.some.injEq] at h
  exact h

theorem enum_complete (P : List (ℕ × ℕ)) {j : ℕ} (hj : j < P.length) :
    (j, P.getD j (0, 0)) ∈ P.enum := by
  rw [List.mem_enum_iff_get?, List.get?_eq_getElem?, List.getElem?_eq_getElem hj]
  rw [List.getD_eq_getElem _ _ hj]

theorem dedupAssoc_keys (P : List (ℕ × ℕ)) (devs : List (Option ℝ)) :
    ∀ e ∈ dedupAssoc P devs, e.2 < P.length ∧ (P.getD e.2 (0, 0)).1 = e.1 := by
  intro e he
  obtain ⟨en, hen, h1, h2⟩ := (dedupAssoc_inv P devs).1 e he
  obtain ⟨hlt, hpg⟩ := enum_honest P en hen
  rw [← h1]
  exact ⟨hlt, by rw [hpg, h2]⟩

theorem dedupAssoc_min (P : List (ℕ × ℕ)) (devs : List (Option ℝ)) :
    ∀ e ∈ dedupAssoc P devs, ∀ j, j < P.length → (P.getD j (0, 0)).1 = e.1 →
      aDev (devs.getD e.2 none) ≤ aDev (devs.getD j none) := by
  intro e he j hj hkey
  exact (dedupAssoc_inv P devs).2.1 e he (j, P.getD j (0, 0)) (enum_complete P hj) hkey

theorem dedupAssoc_cover (P : List (ℕ × ℕ)) (devs : List (Option ℝ)) :
    ∀ j, j < P.length → (P.getD j (0, 0)).1 ∈ (dedupAssoc P devs).map Prod.fst := by
  intro j hj
  exact (dedupAssoc_inv P devs).2.2.1 (j, P.getD j (0, 0)) (enum_complete P hj)

theorem dedupAssoc_keys_nodup (P : List (ℕ × ℕ)) (devs : List (Option ℝ)) :
    ((dedupAssoc P devs).map Prod.fst).Nodup := (dedupAssoc_inv P devs).2.2.2

theorem dedupAssoc_snd_nodup (P : List (ℕ × ℕ)) (devs : List (Option ℝ)) :
    ((dedupAssoc P devs).map Prod.snd).Nodup := by
  have hnd := dedupAssoc_keys_nodup P devs
  have hkeys := dedupAssoc_keys P devs
  rw [List.Nodup, List.pairwise_map] at hnd ⊢
  apply List.Pairwise.imp_of_mem ?_ hnd
  intro a b ha hb hne hc
  apply hne
  rw [← (hkeys a ha).2, ← (hkeys b hb).2, hc]

theorem pairwise_lt_of_le_nodup {l : List ℕ} (h1 : l.Pairwise (· ≤ ·)) (h2 : l.Nodup) :
    l.Pairwise (· < ·) := by
  induction l with
  | nil => exact List.Pairwise.nil
  | cons a t ih =>
      rw [List.pairwise_cons] at h1 ⊢
      rw [List.nodup_cons] at h2
      refine ⟨fun b hb => lt_of_le_of_ne (h1.1 b hb) ?_, ih h1.2 h2.2⟩
      intro hc
      exact h2.1 (hc ▸ hb)

theorem keepIdxs_pairwise_lt (P : List (ℕ × ℕ)) (devs : List (Option ℝ)) :
    (keepIdxs P devs).Pairwise (· < ·) := by
  have hperm := List.perm_insertionSort (· ≤ ·) ((dedupAssoc P devs).map Prod.snd)
  have hsorted : (keepIdxs P devs).Pairwise (· ≤ ·) :=
    List.sorted_insertionSort (· ≤ ·) ((dedupAssoc P devs).map Prod.snd)
  have hnd : (keepIdxs P devs).Nodup :=
    hperm.nodup_iff.mpr (dedupAssoc_snd_nodup P devs)
  exact pairwise_lt_of_le_nodup hsorted hnd

theorem keepIdxs_mem {P : List (ℕ × ℕ)} {devs : List (Option ℝ)} {k : ℕ} :
    k ∈ keepIdxs P devs ↔ k ∈ (dedupAssoc P devs).map Prod.snd := by
  unfold keepIdxs
  exact List.mem_insertionSort (· ≤ ·)

theorem chain_fst_mono {P : List (ℕ × ℕ)}
    (h : List.Chain' (fun a b : ℕ × ℕ => a.1 ≤ b.1) P) {i j : ℕ} (hij : i < j)
    (hj : j < P.length) : (P.getD i (0, 0)).1 ≤ (P.getD j (0, 0)).1 := by
  haveI : IsTrans (ℕ × ℕ) (fun a b : ℕ × ℕ => a.1 ≤ b.1) :=
    ⟨fun _ _ _ h1 h2 => le_trans h1 h2⟩
  have hp := List.chain'_iff_pairwise.mp h
  have hget := List.pairwise_iff_get.mp hp ⟨i, lt_trans hij hj⟩ ⟨j, hj⟩ hij
  rw [List.getD_eq_getElem _ _ (lt_trans hij hj), List.getD_eq_getElem _ _ hj]
  exact hget

theorem getD_map_gen {α β : Type} (f : α → β) (s : List α) (i : ℕ) (h : i < s.length)
    (d1 : β) (d2 : α) : (s.map f).getD i d1 = f (s.getD i d2) := by
  rw [List.getD_eq_getElem _ _ (by rw [List.length_map]; exact h),
    List.getD_eq_getElem _ _ h, List.getElem_map]

theorem absCents_le_of_aDev {o1 o2 : Option ℝ}
    (hb1 : ∀ x : ℝ, o1 = some x → |x| ≤ 600) (hb2 : ∀ x : ℝ, o2 = some x → |x| ≤ 600)
    (h : aDev o1 ≤ aDev o2) : absCents o1 ≤ absCents o2 := by
  rcases o1 with _ | x <;> rcases o2 with _ | y
  · exact le_refl _
  · exfalso
    have h999 : aDev (none : Option ℝ) = 999 := rfl
    have hy : aDev (some y) = |y| := rfl
    rw [h999, hy] at h
    have := hb2 y rfl
    linarith
  · exact le_top
  · have hx : aDev (some x) = |x| := rfl
    have hy : aDev (some y) = |y| := rfl
    rw [hx, hy] at h
    show ((|x| : ℝ) : WithTop ℝ) ≤ ((|y| : ℝ) : WithTop ℝ)
    exact WithTop.coe_le_coe.mpr h

theorem alignDevs_length (u r : Features) (p : List (ℕ × ℕ)) :
    (alignDevs u r p).length = (alignPath u r p).length := by
  unfold alignDevs pitchDevs
  exact List.length_map _ _

theorem alignDevs_bound (u r : Features) (p : List (ℕ × ℕ)) (j : ℕ) :
    ∀ x : ℝ, (alignDevs u r p).getD j none = some x → |x| ≤ 600 := by
  intro x hx
  rcases lt_or_le j (alignDevs u r p).length with hlt | hge
  · rw [List.getD_eq_getElem _ _ hlt] at hx
    have hmem := List.getElem_mem hlt
    unfold alignDevs at hmem
    have := pitchDevs_mem hmem hx
    exact abs_le.mpr this
  · rw [List.getD_eq_default _ _ hge] at hx
    exact absurd hx (by simp)

/-- C4: deduplication keeps exactly one pair per user index — one with
the smallest absolute pitch deviation, unvoiced counting as +∞ — and the
surviving path is strictly increasing in `user_idx` whenever the
aligner's path was monotone in `user_idx`. -/
theorem C4_dedup_one_best_pair (u r : Features) (p : List (ℕ × ℕ)) (d : ℝ)
    (hmono : List.Chain' (fun a b : ℕ × ℕ => a.1 ≤ b.1) (alignPath u r p)) :
    List.Chain' (fun a b : ℕ × ℕ => a.1 < b.1) ((align_rest u r p d).path) ∧
    (∀ n : ℕ, n ∈ ((align_rest u r p d).path.map Prod.fst) ↔
      n ∈ ((alignPath u r p).map Prod.fst)) ∧
    (∀ i, i < (align_rest u r p d).path.length → ∀ j, j < (alignPath u r p).length →
      ((alignPath u r p).getD j (0, 0)).1 = ((align_rest u r p d).path.getD i (0, 0)).1 →
      absCents ((align_rest u r p d).pitch_deviations.getD i none) ≤
        absCents ((alignDevs u r p).getD j none)) := by
  have hkeys := dedupAssoc_keys (alignPath u r p) (alignDevs u r p)
  have hinj := List.inj_on_of_nodup_map
    (dedupAssoc_keys_nodup (alignPath u r p) (alignDevs u r p))
  have hpathD : (align_rest u r p d).path =
      (alignKeep u r p).map (fun i => (alignPath u r p).getD i (0, 0)) := rfl
  have hkeep_mem_facts : ∀ k ∈ alignKeep u r p,
      ∃ e ∈ dedupAssoc (alignPath u r p) (alignDevs u r p),
        e.2 = k ∧ k < (alignPath u r p).length ∧
        ((alignPath u r p).getD k (0, 0)).1 = e.1 := by
    intro k hk
    have := keepIdxs_mem.mp hk
    obtain ⟨e, he, hek⟩ := List.mem_map.mp this
    obtain ⟨hlt, hfst⟩ := hkeys e he
    exact ⟨e, he, hek, hek ▸ hlt, hek ▸ hfst⟩
  refine ⟨?_, ?_, ?_⟩
  · rw [hpathD]
    apply List.Pairwise.chain'
    rw [List.pairwise_map]
    apply List.Pairwise.imp_of_mem ?_ (keepIdxs_pairwise_lt (alignPath u r p) (alignDevs u r p))
    intro k k' hk hk' hlt
    obtain ⟨e, he, hek, hkl, hkf⟩ := hkeep_mem_facts k hk
    obtain ⟨e', he', hek', hkl', hkf'⟩ := hkeep_mem_facts k' hk'
    apply lt_of_le_of_ne (chain_fst_mono hmono hlt hkl')
    intro hc
    rw [hkf, hkf'] at hc
    have hee : e = e' := hinj he he' hc
    rw [← hek, ← hek', hee] at hlt
    exact lt_irrefl _ hlt
  · intro n
    constructor
    · intro hn
      rw [hpathD] at hn
      obtain ⟨q, hq, hqn⟩ := List.mem_map.mp hn
      obtain ⟨k, hk, hkq⟩ := List.mem_map.mp hq
      obtain ⟨e, he, hek, hkl, hkf⟩ := hkeep_mem_facts k hk
      rw [← hqn, ← hkq]
      rw [List.getD_eq_getElem _ _ hkl]
      exact List.mem_map_of_mem Prod.fst (List.getElem_mem hkl)
    · intro hn
      obtain ⟨q, hq, hqn⟩ := List.mem_map.mp hn
      obtain ⟨j, hj⟩ := List.mem_iff_get.mp hq
      have hjl : (j : ℕ) < (alignPath u r p).length := j.isLt
      have hcov := dedupAssoc_cover (alignPath u r p) (alignDevs u r p) j hjl
      obtain ⟨e, he, hen⟩ := List.mem_map.mp hcov
      have hkeep : e.2 ∈ alignKeep u r p :=
        keepIdxs_mem.mpr (List.mem_map_of_mem Prod.snd he)
      rw [hpathD]
      have hmem : (alignPath u r p).getD e.2 (0, 0) ∈
          (alignKeep u r p).map (fun i => (alignPath u r p).getD i (0, 0)) :=
        List.mem_map_of_mem _ hkeep
      have hval : ((alignPath u r p).getD e.2 (0, 0)).1 = n := by
        rw [(hkeys e he).2, hen, List.getD_eq_getElem _ _ hjl, ← hqn, ← hj]
        rfl
      exact List.mem_map.mpr ⟨(alignPath u r p).getD e.2 (0, 0), hmem, hval⟩
  · intro i hi j hj hkey
    have hproj : (align_rest u r p d).pitch_deviations =
        (alignKeep u r p).map (fun i => (alignDevs u r p).getD i none) := rfl
    rw [hpathD, List.length_map] at hi
    have hkmem : (alignKeep u r p).getD i 0 ∈ alignKeep u r p := by
      rw [List.getD_eq_getElem _ _ hi]
      exact List.getElem_mem hi
    obtain ⟨e, he, hek, hkl, hkf⟩ := hkeep_mem_facts _ hkmem
    have hpd : (align_rest u r p d).path.getD i (0, 0) =
        (alignPath u r p).getD ((alignKeep u r p).getD i 0) (0, 0) := by
      rw [hpathD]
      exact getD_map_gen _ _ i hi (0, 0) 0
    have hdd : (align_rest u r p d).pitch_deviations.getD i none =
        (alignDevs u r p).getD ((alignKeep u r p).getD i 0) none := by
      rw [hproj]
      exact getD_map_gen _ _ i hi none 0
    rw [hpd] at hkey
    rw [hkf] at hkey
    have hmin := dedupAssoc_min (alignPath u r p) (alignDevs u r p) e he j hj hkey
    rw [hek] at hmin
    rw [hdd]
    exact absCents_le_of_aDev (alignDevs_bound u r p _) (alignDevs_bound u r p j) hmin

theorem onset_uC4 : singing_onset uC4 rC4 = 0 := by
  unfold singing_onset
  apply detect_eq_zero_of_stop
  show min ((2 : ℕ) : ℤ) (intTrunc (min 5.0 (([(0 : ℝ)].getLast?.getD 0)) / 0.02)) ≤ 0
  rw [List.getLast?_singleton, Option.getD_some]
  rw [show min (5.0 : ℝ) 0 = 0 by norm_num]
  rw [show (0 : ℝ) / 0.02 = 0 by norm_num]
  rw [show intTrunc 0 = 0 by unfold intTrunc; rw [if_pos (le_refl _)]; exact Int.floor_zero]
  omega

theorem offset_uC4 : user_frame_offset uC4 rC4 = 0 := by
  unfold user_frame_offset
  rw [if_neg]
  intro hc
  rw [onset_uC4] at hc
  norm_num at hc

theorem alignPath_C4 : alignPath uC4 rC4 pC4 = pC4 := by
  unfold alignPath
  rw [offset_uC4, shiftPath_zero]

theorem C4_witness :
    List.Chain' (fun a b : ℕ × ℕ => a.1 ≤ b.1) (alignPath uC4 rC4 pC4) ∧
    (List.Chain' (fun a b : ℕ × ℕ => a.1 < b.1) ((align_rest uC4 rC4 pC4 0).path) ∧
      (∀ n : ℕ, n ∈ ((align_rest uC4 rC4 pC4 0).path.map Prod.fst) ↔
        n ∈ ((alignPath uC4 rC4 pC4).map Prod.fst)) ∧
      (∀ i, i < (align_rest uC4 rC4 pC4 0).path.length →
        ∀ j, j < (alignPath uC4 rC4 pC4).length →
        ((alignPath uC4 rC4 pC4).getD j (0, 0)).1 =
          ((align_rest uC4 rC4 pC4 0).path.getD i (0, 0)).1 →
        absCents ((align_rest uC4 rC4 pC4 0).pitch_deviations.getD i none) ≤
          absCents ((alignDevs uC4 rC4 pC4).getD j none))) := by
  have hm : List.Chain' (fun a b : ℕ × ℕ => a.1 ≤ b.1) (alignPath uC4 rC4 pC4) := by
    rw [alignPath_C4]
    unfold pC4
    simp [List.chain'_cons]
  exact ⟨hm, C4_dedup_one_best_pair uC4 rC4 pC4 0 hm⟩

theorem paWindow_some (a : Alignment) (u r : Features) (k : ℕ) (w : PAWindow)
    (h : paWindow a u r k = some w) : paVoiced a u k ≠ [] ∧ w.area.issues ≠ [] := by
  unfold paWindow at h
  by_cases h1 : paVoiced a u k = []
  · rw [if_pos h1] at h
    exact absurd h (by simp)
  · rw [if_neg h1] at h
    by_cases h2 : paIssues a u k = []
    · rw [if_pos h2] at h
      exact absurd h (by simp)
    · rw [if_neg h2, Option.some_inj] at h
      refine ⟨h1, ?_⟩
      rw [← h]
      exact h2

theorem paWindow_none_of_no_voiced (a : Alignment) (u r : Features) (k : ℕ)
    (h : paVoiced a u k = []) : paWindow a u r k = none := by
  unfold paWindow
  rw [if_pos h]

/-- C10: every reported problem area arises from a 2-second window that
contained at least one voiced aligned pitch deviation and tripped at
least one issue threshold; and a window with no voiced pitch deviations
is never turned into a candidate, whatever its timing offsets or energy
ratios. -/
theorem C10_problem_areas_from_voiced_windows (a : Alignment) (u r : Features) :
    (∀ p ∈ identify_problem_areas a u r,
      ∃ k, k < paWindowCount (u.pitch_times.getLast?.getD 0) ∧
        ∃ w : PAWindow, paWindow a u r k = some w ∧ w.area = p ∧
          paVoiced a u k ≠ [] ∧ p.issues ≠ []) ∧
    (∀ k : ℕ, paVoiced a u k = [] → paWindow a u r k = none) := by
  constructor
  · intro p hp
    rw [identify_problem_areas_eq] at hp
    split_ifs at hp with h0
    · exact absurd hp (List.not_mem_nil p)
    · obtain ⟨l, hl, hs⟩ := greedySelect_sublist (paSortedWindows a u r) []
      rw [hl] at hp
      simp only [List.nil_append] at hp
      have hmem : p ∈ (paSortedWindows a u r).map (·.area) := hs.subset hp
      obtain ⟨w, hw, hwp⟩ := List.mem_map.mp hmem
      have hw2 : w ∈ (List.range
          (paWindowCount (u.pitch_times.getLast?.getD 0))).filterMap (paWindow a u r) := by
        unfold paSortedWindows at hw
        exact (List.mem_insertionSort _).mp hw
      obtain ⟨k, hk, hkw⟩ := List.mem_filterMap.mp hw2
      have hfacts := paWindow_some a u r k w hkw
      exact ⟨k, List.mem_range.mp hk, w, hkw, hwp, hfacts.1, hwp ▸ hfacts.2⟩
  · exact paWindow_none_of_no_voiced a u r

theorem secIdxs_W : secIdxs aW.path uW.pitch_times ((0 : ℕ) : ℝ) (((0 : ℕ) : ℝ) + 2) = [0] := by
  unfold secIdxs aW uW
  simp only [List.enum, List.filter_cons, List.filter_nil, List.enumFrom]
  norm_num

theorem paVoiced_W : paVoiced aW uW 0 = [200] := by
  unfold paVoiced
  rw [secIdxs_W]
  show List.filterMap _ [0] = [200]
  rw [List.filterMap_cons, List.filterMap_nil]
  have h1 : aW.pitch_deviations.getD 0 none = some 200 := rfl
  rw [h1]
  norm_num [Option.map_some]

theorem paWT_W : paWT aW uW 0 = [0] := by
  unfold paWT
  rw [secIdxs_W]
  rw [List.map_cons, List.map_nil]
  have h1 : aW.timing_offsets.getD 0 0 = 0 := rfl
  rw [h1]
  norm_num

theorem paWD_W : paWD aW uW 0 = [1] := by
  unfold paWD
  rw [secIdxs_W]
  rw [List.filterMap_cons, List.filterMap_nil]
  have h1 : aW.energy_ratios.getD 0 none = some 1 := rfl
  rw [h1]

theorem paWRT_W : paWRT aW uW rW 0 = [0] := by
  unfold paWRT
  rw [secIdxs_W]
  rw [List.filterMap_cons, List.filterMap_nil]
  have h1 : (aW.path.getD 0 (0, 0)).2 = 0 := rfl
  rw [h1]
  have h2 : rW.pitch_times.length = 1 := rfl
  rw [h2]
  rw [if_pos (by norm_num)]
  have h3 : rW.pitch_times.getD 0 0 = 0 := rfl
  rw [h3]

theorem paAvgDev_W : paAvgDev aW uW 0 = 200 := by
  unfold paAvgDev
  rw [paVoiced_W]
  unfold mean
  norm_num

theorem paAvgOff_W : paAvgOff aW uW 0 = 0 := by
  unfold paAvgOff
  rw [paWT_W]
  unfold mean
  norm_num

theorem paAvgRatio_W : paAvgRatio aW uW 0 = 1 := by
  unfold paAvgRatio
  rw [paWD_W, if_pos (by simp)]
  unfold mean
  norm_num

theorem paIssues_W : paIssues aW uW 0 = ["pitch"] := by
  unfold paIssues
  rw [paAvgDev_W, paAvgOff_W, paAvgRatio_W]
  rw [if_pos (by norm_num), if_neg (by norm_num), if_neg (by norm_num)]
  rfl

theorem paWindow_W : paWindow aW uW rW 0 = some wW := by
  unfold paWindow
  rw [paVoiced_W, paIssues_W, paWRT_W, paAvgDev_W, paAvgOff_W, paAvgRatio_W]
  rw [if_neg (by simp), if_neg (by simp)]
  have hne : ([(0 : ℝ)] : List ℝ) ≠ [] := by simp
  rw [if_pos hne, if_pos hne]
  have e6 : listMin [(0 : ℝ)] = 0 := by unfold listMin; simp
  have e7 : listMax [(0 : ℝ)] = 0 := by unfold listMax; simp
  rw [e6, e7]
  have e1 : roundTo 2 ((0 : ℕ) : ℝ) = 0 := by
    rw [Nat.cast_zero]
    exact roundTo_exact 0 (by norm_num)
  have e2 : roundTo 2 (((0 : ℕ) : ℝ) + 2) = 2 := by
    rw [Nat.cast_zero, zero_add]
    exact roundTo_exact 200 (by norm_num)
  have e3 : roundTo 1 (200 : ℝ) = 200 := roundTo_exact 2000 (by norm_num)
  have e4 : roundTo 1 ((0 : ℝ) * 1000) = 0 := by
    rw [zero_mul]
    exact roundTo_exact 0 (by norm_num)
  have e5 : roundTo 3 (1 : ℝ) = 1 := roundTo_exact 1000 (by norm_num)
  have e8 : roundTo 2 (0 : ℝ) = 0 := roundTo_exact 0 (by norm_num)
  have hb : (200 : ℝ) / 400 * 0.7 + 0 / 2.0 * 0.15 + |1 - (1 : ℝ)| * 0.15 = 0.35 := by
    norm_num
  rw [e1, e2, e3, e4, e5, e8, hb]
  rfl

theorem identify_W : identify_problem_areas aW uW rW = [paW] := by
  rw [identify_problem_areas_eq]
  rw [if_neg (by simp [uW])]
  unfold paSortedWindows
  have hdur : uW.pitch_times.getLast?.getD 0 = 2 := rfl
  rw [hdur]
  have hcount : paWindowCount 2 = 1 := by
    unfold paWindowCount
    rw [if_pos (by norm_num)]
    have hf : ⌊(2 : ℝ) + 0.01 - 2.0⌋ = 0 := by
      rw [show (2 : ℝ) + 0.01 - 2.0 = 0.01 by norm_num]
      rw [Int.floor_eq_zero_iff]
      constructor <;> norm_num
    rw [hf]
    rfl
  rw [hcount]
  rw [show List.range 1 = [0] from rfl]
  have hfm : List.filterMap (paWindow aW uW rW) [0] = [wW] := by
    rw [List.filterMap_cons, paWindow_W, List.filterMap_nil]
  rw [hfm]
  have hsort : List.insertionSort (fun x y : PAWindow => y.badness ≤ x.badness) [wW] = [wW] :=
    rfl
  rw [hsort]
  rw [greedySelect]
  rw [if_neg (by norm_num), if_neg (by simp)]
  rw [greedySelect]
  rfl

theorem C10_witness :
    paW ∈ identify_problem_areas aW uW rW ∧
    (∃ k, k < paWindowCount (uW.pitch_times.getLast?.getD 0) ∧
      ∃ w : PAWindow, paWindow aW uW rW k = some w ∧ w.area = paW ∧
        paVoiced aW uW k ≠ [] ∧ paW.issues ≠ []) ∧
    paVoiced aW uW 5 = [] ∧ paWindow aW uW rW 5 = none := by
  have hmem : paW ∈ identify_problem_areas aW uW rW := by
    rw [identify_W]
    simp
  have h5 : paVoiced aW uW 5 = [] := by
    unfold paVoiced
    have hsec5 : secIdxs aW.path uW.pitch_times ((5 : ℕ) : ℝ) (((5 : ℕ) : ℝ) + 2) = [] := by
      unfold secIdxs aW uW
      simp only [List.enum, List.enumFrom, List.filter_cons, List.filter_nil]
      norm_num
    rw [hsec5, List.filterMap_nil]
  exact ⟨hmem, (C10_problem_areas_from_voiced_windows aW uW rW).1 paW hmem, h5,
    (C10_problem_areas_from_voiced_windows aW uW rW).2 5 h5⟩

theorem logb_hi_C9 : Real.logb 2 (427 / 440) < -1 / 24 := by
  rw [Real.logb_lt_iff_lt_rpow (by norm_num) (by norm_num)]
  have e1 : ((2 : ℝ) ^ ((-1 : ℝ) / 24)) ^ (24 : ℕ) = 2⁻¹ := by
    rw [← Real.rpow_natCast ((2 : ℝ) ^ ((-1 : ℝ) / 24)) 24, ← Real.rpow_mul (by norm_num)]
    norm_num
  apply lt_of_pow_lt_pow_left₀ 24 (by positivity)
  rw [e1]
  norm_num

theorem logb_lo_C9 : -1 / 8 < Real.logb 2 (427 / 440) := by
  rw [Real.lt_logb_iff_rpow_lt (by norm_num) (by norm_num)]
  have e1 : ((2 : ℝ) ^ ((-1 : ℝ) / 8)) ^ (8 : ℕ) = 2⁻¹ := by
    rw [← Real.rpow_natCast ((2 : ℝ) ^ ((-1 : ℝ) / 8)) 8, ← Real.rpow_mul (by norm_num)]
    norm_num
  apply lt_of_pow_lt_pow_left₀ 8 (by positivity)
  rw [e1]
  norm_num

theorem rE427 : rEven (12 * Real.logb 2 (427 / 440)) = -1 := by
  apply rEven_eq_of_abs_lt
  rw [abs_lt]
  have h1 := logb_hi_C9
  have h2 := logb_lo_C9
  constructor <;> push_cast <;> nlinarith

theorem hz427 : hz_to_note 427 = some "Sol#4" := by
  unfold hz_to_note
  rw [if_neg (by norm_num), rE427]
  rfl

theorem hz440 : hz_to_note 440 = some "La4" := by
  unfold hz_to_note
  rw [if_neg (by norm_num)]
  rw [show (440 : ℝ) / 440 = 1 by norm_num, Real.logb_one, mul_zero]
  rw [show (0 : ℝ) = ((0 : ℤ) : ℝ) by norm_num, rEven_intCast]
  rfl

theorem cents_le_C9 : cents_between 440 427 ≤ 100 := by
  unfold cents_between
  rw [if_neg (by norm_num)]
  rw [abs_le]
  have hpos : (0 : ℝ) ≤ Real.logb 2 (440 / 427) :=
    Real.logb_nonneg (by norm_num) (by norm_num)
  have hup : Real.logb 2 (440 / 427) ≤ 1 / 12 := by
    rw [Real.logb_le_iff_le_rpow (by norm_num) (by norm_num)]
    have e1 : ((2 : ℝ) ^ ((1 : ℝ) / 12)) ^ (12 : ℕ) = 2 := by
      rw [← Real.rpow_natCast ((2 : ℝ) ^ ((1 : ℝ) / 12)) 12, ← Real.rpow_mul (by norm_num)]
      norm_num
    have h12 : ((440 : ℝ) / 427) ^ (12 : ℕ) ≤ ((2 : ℝ) ^ ((1 : ℝ) / 12)) ^ (12 : ℕ) := by
      rw [e1]
      norm_num
    exact le_of_pow_le_pow_left₀ (by norm_num) (by positivity) h12
  constructor <;> nlinarith

theorem voicedOf_pos {v : ℝ} (h : 0 < v) : voicedOf (some v) = some v := by
  show (if 0 < v then some v else none) = some v
  rw [if_pos h]

theorem median_single (x : ℝ) : median [x] = x := by
  have h : median [x] = (sortR [x]).getD ([x].length / 2) 0 :=
    median_def_odd (by simp) (by norm_num)
  rw [h, show sortR [x] = [x] from rfl, show ([x] : List ℝ).length / 2 = 0 by norm_num]
  rfl

theorem median_double (x : ℝ) : median [x, x] = x := by
  have h : median [x, x] = ((sortR [x, x]).getD ([x, x].length / 2 - 1) 0 +
      (sortR [x, x]).getD ([x, x].length / 2) 0) / 2 :=
    median_def_even (by simp) (by norm_num)
  have hs : sortR [x, x] = [x, x] := by
    unfold sortR
    rw [List.insertionSort, List.insertionSort, List.insertionSort, List.orderedInsert,
      List.orderedInsert, if_pos (le_refl x)]
  rw [h, hs, show ([x, x] : List ℝ).length / 2 - 1 = 0 by norm_num,
    show ([x, x] : List ℝ).length / 2 = 1 by norm_num]
  show (x + x) / 2 = x
  ring

theorem extractStep_fresh (oF dF : List ℕ) (notes : List Note) (fr : List ℝ) (i : ℕ)
    (v0 : Option ℝ) (v t : ℝ) (hv : voicedOf v0 = some v) :
    extractStep oF dF ⟨notes, fr, none⟩ (i, (v0, t)) = ⟨notes, [v], some t⟩ := by
  unfold extractStep
  dsimp only
  rw [hv]

theorem extractStep_continue (oF dF : List ℕ) (notes : List Note) (fr : List ℝ) (s : ℝ)
    (i : ℕ) (v0 : Option ℝ) (v t : ℝ) (hv : voicedOf v0 = some v)
    (hcond : ¬(100 < (if 0 < median fr then |1200 * Real.logb 2 (v / median fr)| else 0) ∨
      (i ∈ oF ∧ 0.12 ≤ t - s) ∨ (i ∈ dF ∧ 0.12 ≤ t - s))) :
    extractStep oF dF ⟨notes, fr, some s⟩ (i, (v0, t)) = ⟨notes, fr ++ [v], some s⟩ := by
  unfold extractStep
  dsimp only
  rw [hv]
  dsimp only
  rw [if_neg hcond]

theorem onsetFrames_C9 : onsetFrames [] [(0 : ℝ), 0.12] = [] := by
  unfold onsetFrames
  rw [if_pos (Or.inl rfl)]

theorem energyDipFrames_C9 : energyDipFrames [(1 : ℝ), 1] [(0 : ℝ), 0.12] [(0 : ℝ), 0.12] = [] := by
  unfold energyDipFrames
  rw [if_neg (by simp)]
  rfl

theorem unotes_C9 :
    extract_notes [some 427, some 427] [0, 0.12] [] [1, 1] [0, 0.12] none = [userNoteC9] := by
  unfold extract_notes
  rw [onsetFrames_C9, energyDipFrames_C9]
  rw [show framesFor [some 427, some 427] [0, 0.12] none =
    [(0, (some 427, 0)), (1, (some 427, 0.12))] from rfl]
  rw [List.foldl_cons, List.foldl_cons, List.foldl_nil]
  rw [extractStep_fresh [] [] [] [] 0 (some 427) 427 0 (voicedOf_pos (by norm_num))]
  rw [extractStep_continue [] [] [] [427] 0 1 (some 427) 427 0.12
    (voicedOf_pos (by norm_num)) ?hc]
  case hc =>
    rw [median_single, if_pos (by norm_num : (0 : ℝ) < 427)]
    rw [show (427 : ℝ) / 427 = 1 by norm_num, Real.logb_one, mul_zero, abs_zero]
    simp only [List.mem_nil_iff, false_and, or_false]
    norm_num
  rw [show ([(427 : ℝ)] ++ [427] : List ℝ) = [427, 427] from rfl]
  dsimp only
  rw [if_pos (by simp : ([(427 : ℝ), 427] : List ℝ) ≠ [])]
  rw [show (Option.getD ([(0 : ℝ), 0.12].getLast?) 0) = 0.12 from rfl]
  rw [if_pos (by norm_num : (0.12 : ℝ) ≤ 0.12 - 0)]
  rw [List.nil_append]
  unfold emitNote
  rw [median_double, hz427]
  have er1 : roundTo 3 (0 : ℝ) = 0 := roundTo_exact 0 (by norm_num)
  have er2 : roundTo 3 (0.12 : ℝ) = 0.12 := roundTo_exact 120 (by norm_num)
  have er3 : roundTo 1 (427 : ℝ) = 427 := roundTo_exact 4270 (by norm_num)
  rw [er1, er2, er3]
  rfl

theorem framesFor_C9 :
    framesFor [some 440, some 440] [0, 0.12] (some (0.12 * 1.2 + 5.0)) =
      [(0, (some 440, 0)), (1, (some 440, 0.12))] := by
  unfold framesFor
  show List.takeWhile _ [(0, (some (440 : ℝ), (0 : ℝ))), (1, (some 440, 0.12))] = _
  rw [List.takeWhile_cons_of_pos (by simp only [decide_eq_true_eq]; norm_num),
    List.takeWhile_cons_of_pos (by simp only [decide_eq_true_eq]; norm_num),
    List.takeWhile_nil]

theorem rnotes_C9 :
    extract_notes [some 440, some 440] [0, 0.12] [] [1, 1] [0, 0.12]
      (some (0.12 * 1.2 + 5.0)) = [refNoteC9] := by
  unfold extract_notes
  rw [onsetFrames_C9, energyDipFrames_C9, framesFor_C9]
  rw [List.foldl_cons, List.foldl_cons, List.foldl_nil]
  rw [extractStep_fresh [] [] [] [] 0 (some 440) 440 0 (voicedOf_pos (by norm_num))]
  rw [extractStep_continue [] [] [] [440] 0 1 (some 440) 440 0.12
    (voicedOf_pos (by norm_num)) ?hc]
  case hc =>
    rw [median_single, if_pos (by norm_num : (0 : ℝ) < 440)]
    rw [show (440 : ℝ) / 440 = 1 by norm_num, Real.logb_one, mul_zero, abs_zero]
    simp only [List.mem_nil_iff, false_and, or_false]
    norm_num
  rw [show ([(440 : ℝ)] ++ [440] : List ℝ) = [440, 440] from rfl]
  dsimp only
  rw [if_pos (by simp : ([(440 : ℝ), 440] : List ℝ) ≠ [])]
  rw [show (Option.getD ([(0 : ℝ), 0.12].getLast?) 0) = 0.12 from rfl]
  rw [if_pos (by norm_num : (0.12 : ℝ) ≤ 0.12 - 0)]
  rw [List.nil_append]
  unfold emitNote
  rw [median_double, hz440]
  have er1 : roundTo 3 (0 : ℝ) = 0 := roundTo_exact 0 (by norm_num)
  have er2 : roundTo 3 (0.12 : ℝ) = 0.12 := roundTo_exact 120 (by norm_num)
  have er3 : roundTo 1 (440 : ℝ) = 440 := roundTo_exact 4400 (by norm_num)
  rw [er1, er2, er3]
  rfl

theorem searchBest_C9 : searchBest [userNoteC9] 0 0 = some (0, 0) := by
  unfold searchBest
  rw [show min (0 + 8) ([userNoteC9].length) - 0 = 1 from rfl]
  rw [show List.range' 0 1 = [0] from rfl]
  rw [List.foldl_cons, List.foldl_nil]
  dsimp only
  rw [show ([userNoteC9].getD 0 defNote).startTime = (0 : ℝ) from rfl]
  rw [if_pos (by norm_num : |(0 : ℝ) - 0| ≤ 2.0)]
  simp

theorem align_C9 : align_notes [refNoteC9] [userNoteC9] = [matchedPair 0 refNoteC9 userNoteC9] := by
  unfold align_notes
  rw [alignNotesGo]
  rw [show refNoteC9.startTime = (0 : ℝ) from rfl]
  rw [searchBest_C9]
  rfl

theorem median_note_u_C9 : median_note [some 427, some 427] [0, 0.12] 0 0.12 = some "Sol#4" := by
  unfold median_note
  rw [show ([some (427 : ℝ), some 427].zip [(0 : ℝ), 0.12]) =
    [(some 427, 0), (some 427, 0.12)] from rfl]
  rw [List.filterMap_cons, List.filterMap_cons, List.filterMap_nil]
  dsimp only
  rw [if_neg (by norm_num : ¬((0 : ℝ) < 0 ∨ (0.12 : ℝ) ≤ 0))]
  rw [if_pos (Or.inr (by norm_num : (0.12 : ℝ) ≤ 0.12))]
  rw [voicedOf_pos (by norm_num : (0 : ℝ) < 427)]
  show (if ([(427 : ℝ)] : List ℝ) = [] then none else hz_to_note (median [427])) = some "Sol#4"
  rw [if_neg (by simp), median_single, hz427]

theorem median_note_r_C9 : median_note [some 440, some 440] [0, 0.12] 0 0.12 = some "La4" := by
  unfold median_note
  rw [show ([some (440 : ℝ), some 440].zip [(0 : ℝ), 0.12]) =
    [(some 440, 0), (some 440, 0.12)] from rfl]
  rw [List.filterMap_cons, List.filterMap_cons, List.filterMap_nil]
  dsimp only
  rw [if_neg (by norm_num : ¬((0 : ℝ) < 0 ∨ (0.12 : ℝ) ≤ 0))]
  rw [if_pos (Or.inr (by norm_num : (0.12 : ℝ) ≤ 0.12))]
  rw [voicedOf_pos (by norm_num : (0 : ℝ) < 440)]
  show (if ([(440 : ℝ)] : List ℝ) = [] then none else hz_to_note (median [440])) = some "La4"
  rw [if_neg (by simp), median_single, hz440]

theorem sections_C9 : compute_section_scores aC9 uC9 rC9 = [secC9] := by
  unfold compute_section_scores
  rw [show uC9.pitch_times = [(0 : ℝ), 0.12] from rfl]
  rw [if_neg (by simp)]
  rw [show (([(0 : ℝ), 0.12] : List ℝ).getLast?.getD 0) = 0.12 from rfl]
  dsimp only
  have hrE : rEven ((0.12 : ℝ) / 1.0) = 0 := by
    apply rEven_eq_of_abs_lt
    rw [abs_lt]
    push_cast
    constructor <;> norm_num
  rw [hrE]
  rw [show (max (1 : ℤ) 0).toNat = 1 from rfl]
  rw [show List.range 1 = [0] from rfl]
  rw [List.map_cons, List.map_nil]
  rw [show (((0 : ℕ) : ℝ) * (0.12 / ((1 : ℕ) : ℝ))) = 0 by push_cast; norm_num]
  rw [show ((((0 : ℕ) : ℝ) + 1) * (0.12 / ((1 : ℕ) : ℝ))) = 0.12 by push_cast; norm_num]
  rw [show aC9.path = ([] : List (ℕ × ℕ)) from rfl]
  rw [show secIdxs [] [(0 : ℝ), 0.12] 0 0.12 = [] from rfl]
  rw [List.filterMap_nil, List.filterMap_nil, List.map_nil]
  rw [if_neg (by simp : ¬(([] : List ℝ) ≠ []))]
  rw [show uC9.pitch_values = [some (427 : ℝ), some 427] from rfl]
  rw [show rC9.pitch_values = [some (440 : ℝ), some 440] from rfl]
  rw [show rC9.pitch_times = [(0 : ℝ), 0.12] from rfl]
  rw [median_note_u_C9, median_note_r_C9]
  have ea : roundTo 2 (0 : ℝ) = 0 := roundTo_exact 0 (by norm_num)
  have eb : roundTo 2 (0.12 : ℝ) = 0.12 := roundTo_exact 12 (by norm_num)
  rw [ea, eb]
  rfl

/-- C9: in section scores `noteMatch` is exact name equality of the
segment's median reference and user notes (and `none` when either median
is absent), whereas a matched pair's `noteMatch` in the note comparison
is the ≤ 100-cent Hz-distance test; on the concrete 427 Hz vs 440 Hz
take the section reports `noteMatch = some false` while the aligned note
pair reports `noteMatch = true`. -/
theorem C9_section_name_equality_vs_pair_cents :
    (∀ (a : Alignment) (u r : Features), ∀ sec ∈ compute_section_scores a u r,
      ((sec.refNote = none ∨ sec.userNote = none) → sec.noteMatch = none) ∧
      (∀ x y : String, sec.refNote = some x → sec.userNote = some y →
        sec.noteMatch = some (x == y))) ∧
    (∀ (ridx : ℕ) (ref user : Note),
      (matchedPair ridx ref user).noteMatch = decide (cents_between ref.hz user.hz ≤ 100)) ∧
    ((score_recording uC9 rC9 aC9).sectionScores.map SectionScore.noteMatch = [some false] ∧
      (score_recording uC9 rC9 aC9).sectionScores.map SectionScore.refNote = [some "La4"] ∧
      (score_recording uC9 rC9 aC9).sectionScores.map SectionScore.userNote = [some "Sol#4"] ∧
      (score_recording uC9 rC9 aC9).noteComparison.map NotePair.noteMatch = [true] ∧
      (score_recording uC9 rC9 aC9).noteComparison.map NotePair.refNote = [some "La4"] ∧
      (score_recording uC9 rC9 aC9).noteComparison.map NotePair.userNote = [some "Sol#4"]) := by
  refine ⟨?_, ?_, ?_⟩
  · intro a u r sec hsec
    unfold compute_section_scores at hsec
    split at hsec
    · exact absurd hsec (List.not_mem_nil sec)
    · dsimp only at hsec
      obtain ⟨si, hsi, hfeq⟩ := List.mem_map.mp hsec
      have key : sec.noteMatch = match sec.refNote, sec.userNote with
          | some a, some b => some (a == b)
          | _, _ => none := by
        rw [← hfeq]
      constructor
      · intro hor
        rw [key]
        rcases h1 : sec.refNote with _ | x
        · rfl
        · rcases h2 : sec.userNote with _ | y
          · rfl
          · rcases hor with hr | hu
            · rw [h1] at hr
              exact absurd hr (by simp)
            · rw [h2] at hu
              exact absurd hu (by simp)
      · intro x y hx hy
        rw [key, hx, hy]
  · intro ridx ref user
    rfl
  · have hsec : (score_recording uC9 rC9 aC9).sectionScores = [secC9] := sections_C9
    have hnc : (score_recording uC9 rC9 aC9).noteComparison =
        [matchedPair 0 refNoteC9 userNoteC9] := by
      show align_notes
        (extract_notes [some 440, some 440] [0, 0.12] [] [1, 1] [0, 0.12]
          (some (0.12 * 1.2 + 5.0)))
        (extract_notes [some 427, some 427] [0, 0.12] [] [1, 1] [0, 0.12] none) = _
      rw [rnotes_C9, unotes_C9, align_C9]
    have hnm : (matchedPair 0 refNoteC9 userNoteC9).noteMatch = true := by
      show decide (cents_between (440 : ℝ) 427 ≤ 100) = true
      exact decide_eq_true cents_le_C9
    refine ⟨?_, ?_, ?_, ?_, ?_, ?_⟩
    · rw [hsec]
      rfl
    · rw [hsec]
      rfl
    · rw [hsec]
      rfl
    · rw [hnc, List.map_cons, List.map_nil, hnm]
    · rw [hnc]
      rfl
    · rw [hnc]
      rfl

theorem C9_witness :
    secC9 ∈ compute_section_scores aC9 uC9 rC9 ∧
    secC9.refNote = some "La4" ∧ secC9.userNote = some "Sol#4" ∧
    secC9.noteMatch = some ("La4" == "Sol#4") := by
  have hmem : secC9 ∈ compute_section_scores aC9 uC9 rC9 := by
    rw [sections_C9]
    simp
  exact ⟨hmem, rfl, rfl,
    ((C9_section_name_equality_vs_pair_cents.1 aC9 uC9 rC9 secC9 hmem).2 "La4" "Sol#4" rfl rfl)⟩

theorem extract_notes_nil (onsets rv rt : List ℝ) (maxT : Option ℝ) :
    extract_notes [] [] onsets rv rt maxT = [] := by
  have hf : framesFor [] [] maxT = [] := by
    cases maxT <;> rfl
  unfold extract_notes
  rw [hf, List.foldl_nil]

theorem alignNotesGo_empty (rn : List Note) (ridx u0 : ℕ) :
    alignNotesGo [] rn ridx u0 = (rn.enumFrom ridx).map (fun e => nullPair e.1 e.2) := by
  induction rn generalizing ridx u0 with
  | nil => rw [alignNotesGo]; rfl
  | cons ref rest ih =>
      rw [alignNotesGo]
      have hsb : searchBest [] ref.startTime u0 = none := by
        unfold searchBest
        rw [show min (u0 + 8) ([] : List Note).length - u0 = 0 by simp]
        rw [show List.range' u0 0 = [] from rfl, List.foldl_nil]
      rw [hsb, ih]
      rfl

theorem userSeq_empty {u : Features} (r : Features) (hu : u.pitch_values = []) :
    userSeq u r = [] := by
  unfold userSeq userPitchDtw
  rw [hu, List.drop_nil]
  rfl

theorem alignPath_nil (u r : Features) : alignPath u r [] = [] := by
  unfold alignPath shiftPath
  split_ifs <;> simp

theorem alignDevs_nil (u r : Features) : alignDevs u r [] = [] := by
  unfold alignDevs pitchDevs
  rw [alignPath_nil]
  rfl

theorem alignKeep_nil (u r : Features) : alignKeep u r [] = [] := by
  unfold alignKeep keepIdxs
  have hda : dedupAssoc (alignPath u r []) (alignDevs u r []) = [] := by
    rw [alignPath_nil]
    rfl
  rw [hda]
  rfl

theorem align_rest_nil_path (u r : Features) (d : ℝ) : (align_rest u r [] d).path = [] := by
  show (alignKeep u r []).map _ = []
  rw [alignKeep_nil]
  rfl

theorem align_rest_nil_devs (u r : Features) (d : ℝ) :
    (align_rest u r [] d).pitch_deviations = [] := by
  show (alignKeep u r []).map _ = []
  rw [alignKeep_nil]
  rfl

theorem align_rest_nil_timing (u r : Features) (d : ℝ) :
    (align_rest u r [] d).timing_offsets = [] := by
  show (alignRawsD u r []).map _ = []
  unfold alignRawsD
  rw [alignKeep_nil]
  rfl

theorem align_rest_nil_energy (u r : Features) (d : ℝ) :
    (align_rest u r [] d).energy_ratios = [] := by
  show (alignKeep u r []).map _ = []
  rw [alignKeep_nil]
  rfl

theorem score_pitch_nil : score_pitch [] = 50 := by
  unfold score_pitch
  rw [if_pos (List.filterMap_nil _)]

theorem score_timing_nil : score_timing [] = 50 := by
  unfold score_timing
  rw [if_pos rfl]

theorem score_dynamics_nil : score_dynamics [] = 50 := by
  unfold score_dynamics
  rw [if_pos (List.filterMap_nil _)]

/-- C2, amended: for an empty user stream the aligner contract forces an
empty path and distance 0, and the report defaults every dimension to 50
with empty section scores and problem areas — but `noteComparison` is
not empty: it holds one null pair per extracted reference note. -/
theorem C2A_empty_user_report (u r : Features) (p : List (ℕ × ℕ)) (d : ℝ)
    (hu : u.pitch_values = []) (ht : u.pitch_times = [])
    (hdtw : DTWSpec (userSeq u r) (refSeq u r) p d) :
    p = [] ∧ d = 0 ∧
    (score_recording u r (align_rest u r p d)).overallScore = 50 ∧
    (score_recording u r (align_rest u r p d)).pitchScore = 50 ∧
    (score_recording u r (align_rest u r p d)).timingScore = 50 ∧
    (score_recording u r (align_rest u r p d)).dynamicsScore = 50 ∧
    (score_recording u r (align_rest u r p d)).sectionScores = [] ∧
    (score_recording u r (align_rest u r p d)).problemAreas = [] ∧
    (score_recording u r (align_rest u r p d)).noteComparison =
      ((extract_notes r.pitch_values r.pitch_times r.onset_times r.rms_values r.rms_times
        (some (u.duration_s * 1.2 + 5.0))).enumFrom 0).map (fun e => nullPair e.1 e.2) := by
  unfold DTWSpec at hdtw
  rw [if_pos (Or.inl (userSeq_empty r hu))] at hdtw
  obtain ⟨hp, hd⟩ := hdtw
  subst hp
  subst hd
  have h50 : roundTo 1 (50 : ℝ) = 50 := roundTo_exact 500 (by norm_num)
  refine ⟨rfl, rfl, ?_, ?_, ?_, ?_, ?_, ?_, ?_⟩
  · show roundTo 1 (score_pitch (align_rest u r [] 0).pitch_deviations * 0.7 +
      score_timing (align_rest u r [] 0).timing_offsets * 0.15 +
      score_dynamics (align_rest u r [] 0).energy_ratios * 0.15) = 50
    rw [align_rest_nil_devs, align_rest_nil_timing, align_rest_nil_energy,
      score_pitch_nil, score_timing_nil, score_dynamics_nil]
    rw [show (50 : ℝ) * 0.7 + 50 * 0.15 + 50 * 0.15 = 50 by norm_num]
    exact h50
  · show roundTo 1 (score_pitch (align_rest u r [] 0).pitch_deviations) = 50
    rw [align_rest_nil_devs, score_pitch_nil]
    exact h50
  · show roundTo 1 (score_timing (align_rest u r [] 0).timing_offsets) = 50
    rw [align_rest_nil_timing, score_timing_nil]
    exact h50
  · show roundTo 1 (score_dynamics (align_rest u r [] 0).energy_ratios) = 50
    rw [align_rest_nil_energy, score_dynamics_nil]
    exact h50
  · show compute_section_scores (align_rest u r [] 0) u r = []
    unfold compute_section_scores
    rw [if_pos ht]
  · show (identify_problem_areas (align_rest u r [] 0) u r).take 3 = []
    rw [identify_problem_areas_eq, if_pos ht]
    rfl
  · show align_notes
      (extract_notes r.pitch_values r.pitch_times r.onset_times r.rms_values r.rms_times
        (some (u.duration_s * 1.2 + 5.0)))
      (extract_notes u.pitch_values u.pitch_times u.onset_times u.rms_values u.rms_times
        none) = _
    rw [hu, ht, extract_notes_nil]
    unfold align_notes
    rw [alignNotesGo_empty]

theorem framesFor_C2 :
    framesFor [some 440, some 440] [0, 0.12] (some ((0 : ℝ) * 1.2 + 5.0)) =
      [(0, (some 440, 0)), (1, (some 440, 0.12))] := by
  unfold framesFor
  show List.takeWhile _ [(0, (some (440 : ℝ), (0 : ℝ))), (1, (some 440, 0.12))] = _
  rw [List.takeWhile_cons_of_pos (by simp only [decide_eq_true_eq]; norm_num),
    List.takeWhile_cons_of_pos (by simp only [decide_eq_true_eq]; norm_num),
    List.takeWhile_nil]

theorem rnotes_C2 :
    extract_notes [some 440, some 440] [0, 0.12] [] [1, 1] [0, 0.12]
      (some ((0 : ℝ) * 1.2 + 5.0)) = [refNoteC9] := by
  unfold extract_notes
  rw [onsetFrames_C9, energyDipFrames_C9, framesFor_C2]
  rw [List.foldl_cons, List.foldl_cons, List.foldl_nil]
  rw [extractStep_fresh [] [] [] [] 0 (some 440) 440 0 (voicedOf_pos (by norm_num))]
  rw [extractStep_continue [] [] [] [440] 0 1 (some 440) 440 0.12
    (voicedOf_pos (by norm_num)) ?hc]
  case hc =>
    rw [median_single, if_pos (by norm_num : (0 : ℝ) < 440)]
    rw [show (440 : ℝ) / 440 = 1 by norm_num, Real.logb_one, mul_zero, abs_zero]
    simp only [List.mem_nil_iff, false_and, or_false]
    norm_num
  rw [show ([(440 : ℝ)] ++ [440] : List ℝ) = [440, 440] from rfl]
  dsimp only
  rw [if_pos (by simp : ([(440 : ℝ), 440] : List ℝ) ≠ [])]
  rw [show (Option.getD ([(0 : ℝ), 0.12].getLast?) 0) = 0.12 from rfl]
  rw [if_pos (by norm_num : (0.12 : ℝ) ≤ 0.12 - 0)]
  rw [List.nil_append]
  unfold emitNote
  rw [median_double, hz440]
  have er1 : roundTo 3 (0 : ℝ) = 0 := roundTo_exact 0 (by norm_num)
  have er2 : roundTo 3 (0.12 : ℝ) = 0.12 := roundTo_exact 120 (by norm_num)
  have er3 : roundTo 1 (440 : ℝ) = 440 := roundTo_exact 4400 (by norm_num)
  rw [er1, er2, er3]
  rfl

theorem dtwE_C2 : DTWSpec (userSeq uE rC9) (refSeq uE rC9) [] 0 := by
  unfold DTWSpec
  rw [if_pos (Or.inl (userSeq_empty rC9 rfl))]
  exact ⟨rfl, rfl⟩

/-- C2 counterexample: for an empty user recording against a one-note
reference, every aligner outcome consistent with the contract is the
empty path with distance 0, yet the report's `noteComparison` is not
empty — the reference note surfaces as an unmatched null pair. -/
theorem C2_counterexample :
    DTWSpec (userSeq uE rC9) (refSeq uE rC9) [] 0 ∧
    (score_recording uE rC9 (align_rest uE rC9 [] 0)).noteComparison =
      [nullPair 0 refNoteC9] ∧
    (score_recording uE rC9 (align_rest uE rC9 [] 0)).noteComparison ≠ [] := by
  have hnc : (score_recording uE rC9 (align_rest uE rC9 [] 0)).noteComparison =
      [nullPair 0 refNoteC9] := by
    show align_notes
      (extract_notes [some 440, some 440] [0, 0.12] [] [1, 1] [0, 0.12]
        (some ((0 : ℝ) * 1.2 + 5.0)))
      (extract_notes [] [] [] [0] [0] none) = _
    rw [rnotes_C2, extract_notes_nil]
    unfold align_notes
    rw [alignNotesGo_empty]
    rfl
  refine ⟨dtwE_C2, hnc, ?_⟩
  rw [hnc]
  simp

theorem C2A_witness :
    (uE.pitch_values = [] ∧ uE.pitch_times = [] ∧
      DTWSpec (userSeq uE rC9) (refSeq uE rC9) [] 0) ∧
    ((([] : List (ℕ × ℕ)) = [] ∧ (0 : ℝ) = 0 ∧
      (score_recording uE rC9 (align_rest uE rC9 [] 0)).overallScore = 50 ∧
      (score_recording uE rC9 (align_rest uE rC9 [] 0)).pitchScore = 50 ∧
      (score_recording uE rC9 (align_rest uE rC9 [] 0)).timingScore = 50 ∧
      (score_recording uE rC9 (align_rest uE rC9 [] 0)).dynamicsScore = 50 ∧
      (score_recording uE rC9 (align_rest uE rC9 [] 0)).sectionScores = [] ∧
      (score_recording uE rC9 (align_rest uE rC9 [] 0)).problemAreas = [] ∧
      (score_recording uE rC9 (align_rest uE rC9 [] 0)).noteComparison =
        ((extract_notes rC9.pitch_values rC9.pitch_times rC9.onset_times rC9.rms_values
          rC9.rms_times (some (uE.duration_s * 1.2 + 5.0))).enumFrom 0).map
          (fun e => nullPair e.1 e.2))) :=
  ⟨⟨rfl, rfl, dtwE_C2⟩, C2A_empty_user_report uE rC9 [] 0 rfl rfl dtwE_C2⟩

end VocalService









